import Mathlib

/-!
Verification development for the MORK kernel.

This file gives a shallow embedding of the parts of the MORK kernel that the
checked properties talk about:

* the bytes-based triemap of `kernel/src/triemap_derivation.rs`
  (`BytesTrieMap`, its relational-algebra operations and its iterator);
* the tokenizer fallback of `kernel/src/space_temporary.rs` (`ParDataParser`);
* the pattern-to-stack compiler and the referential transition engine of
  `kernel/src/space_temporary.rs`, together with the `query_multi` /
  `transform_multi_multi` drivers;
* the unification engine of `kernel/src/pattern_matching.rs`.

Bytes are modelled as `Nat` (the Rust code uses `u8`; no arithmetic overflow
occurs in any of the modelled operations, only comparisons and table lookups,
so the embedding carries plain naturals).  `BTreeMap<u8, _>` collections are
modelled as strictly sorted association lists, which is the ordered-map
behaviour the Rust type guarantees.
-/

namespace Mork

/-- A node of `BytesTrieMap`: `TrieNode { value: Option<V>, children: BTreeMap<u8, TrieNode<V>> }`.
The `children` map is represented as an association list sorted strictly by key. -/
inductive TNode (V : Type) where
  | mk (val : Option V) (children : List (Nat × TNode V))
deriving Repr

namespace TNode

variable {V : Type}

/-- The stored value of a node. -/
def val : TNode V → Option V
  | .mk v _ => v

/-- The child list of a node. -/
def children : TNode V → List (Nat × TNode V)
  | .mk _ cs => cs

/-- `TrieNode::new()` : an empty node. -/
def nu : TNode V := .mk none []

/-- `BTreeMap::get` on the child list: find the child for byte `b`. -/
def findChild : List (Nat × TNode V) → Nat → Option (TNode V)
  | [], _ => none
  | (b', c) :: cs, b => if b = b' then some c else findChild cs b

/-- `BTreeMap::entry(b).or_insert_with(new)` followed by applying `f` to the entry,
on a sorted association list. -/
def childUpdate (cs : List (Nat × TNode V)) (b : Nat) (f : TNode V → TNode V) :
    List (Nat × TNode V) :=
  match cs with
  | [] => [(b, f nu)]
  | (b', c) :: rest =>
    if b < b' then (b, f nu) :: (b', c) :: rest
    else if b = b' then (b', f c) :: rest
    else (b', c) :: childUpdate rest b f

/-- `BytesTrieMap::insert` on a node: walk the key creating nodes, then
`node.value.replace(value)`. -/
def insertN (n : TNode V) (k : List Nat) (v : V) : TNode V :=
  match k with
  | [] => .mk (some v) n.children
  | b :: rest => .mk n.val (childUpdate n.children b (fun c => insertN c rest v))

/-- `BytesTrieMap::get` on a node. -/
def getN (n : TNode V) (k : List Nat) : Option V :=
  match k with
  | [] => n.val
  | b :: rest =>
    match findChild n.children b with
    | none => none
    | some c => getN c rest

mutual
/-- `BytesTrieMap::count_values`: 1 for a present value plus the counts of all children. -/
def countN : TNode V → Nat
  | .mk v cs => (if v.isSome then 1 else 0) + countC cs
/-- Sum of `countN` over a child list. -/
def countC : List (Nat × TNode V) → Nat
  | [] => 0
  | (_, c) :: cs => countN c + countC cs
end

/-- Store (or replace) the child for byte `b` in a sorted child list: the
state of a `BTreeMap` slot after `entry(b).or_insert_with(new)` and an
in-place mutation that left `c` in the slot. -/
def childSet (cs : List (Nat × TNode V)) (b : Nat) (c : TNode V) : List (Nat × TNode V) :=
  match cs with
  | [] => [(b, c)]
  | (b', c') :: rest =>
    if b < b' then (b, c) :: (b', c') :: rest
    else if b = b' then (b', c) :: rest
    else (b', c') :: childSet rest b c

mutual
/-- `union_recursive`: take the other node's value when absent here, and merge
every child of the other node into this node's child map. -/
def unionN (n : TNode V) : TNode V → TNode V
  | .mk ov os =>
    .mk (if n.val.isNone && ov.isSome then ov else n.val)
      (unionC n.children os)
/-- The loop `for (byte, other_child) in &other_node.children { ... }`:
each other-child is merged into the slot `children.entry(byte).or_insert_with(new)`. -/
def unionC (cs : List (Nat × TNode V)) : List (Nat × TNode V) → List (Nat × TNode V)
  | [] => cs
  | (b, oc) :: os =>
    unionC (childSet cs b (unionN (match findChild cs b with
                                   | some c => c
                                   | none => nu) oc)) os
end

mutual
/-- `intersection_recursive`: keep a value only when both nodes carry one
(the left value is kept), and recurse over children present on both sides.
Note the Rust code materialises the result child with `entry(..).or_insert_with(new)`
even when the recursive intersection stores nothing below it. -/
def interN : TNode V → TNode V → TNode V
  | .mk v cs, o =>
    .mk (if v.isSome && o.val.isSome then v else none)
      (interC cs o.children)
/-- The loop `for (byte, child1) in &node1.children { if let Some(child2) = ... }`. -/
def interC : List (Nat × TNode V) → List (Nat × TNode V) → List (Nat × TNode V)
  | [], _ => []
  | (b, c) :: cs, os =>
    match findChild os b with
    | some oc => (b, interN c oc) :: interC cs os
    | none => interC cs os
end

mutual
/-- `difference_recursive`: drop the value when the other node has one, recurse
over shared children, then `retain` only children that still carry a value or
have children of their own. -/
def diffN : TNode V → TNode V → TNode V
  | .mk v cs, o =>
    .mk (if o.val.isSome then none else v)
      ((diffC cs o).filter fun bc => bc.2.val.isSome || !bc.2.children.isEmpty)
/-- The loop `for (byte, child) in &mut node.children { ... }`. -/
def diffC : List (Nat × TNode V) → TNode V → List (Nat × TNode V)
  | [], _ => []
  | (b, c) :: cs, o =>
    (b, match findChild o.children b with
        | some oc => diffN c oc
        | none => c) :: diffC cs o
end

/-- Strict byte-sortedness of a child list (the `BTreeMap` key order invariant). -/
def sortedKeys : List (Nat × TNode V) → Bool
  | [] => true
  | [_] => true
  | (b, _) :: (b', c) :: rest => decide (b < b') && sortedKeys ((b', c) :: rest)

mutual
/-- Well-formedness of a node: every child map is strictly sorted, recursively. -/
def wfN : TNode V → Bool
  | .mk _ cs => sortedKeys cs && wfC cs
/-- Well-formedness of every node of a child list. -/
def wfC : List (Nat × TNode V) → Bool
  | [] => true
  | (_, c) :: cs => wfN c && wfC cs
end

/-- All keys of a child list are above `b`. -/
def ltAll (b : Nat) (cs : List (Nat × TNode V)) : Prop :=
  ∀ p ∈ cs, b < p.1

/-- The value-preference of the Rust `union_recursive`: left value first. -/
def oOr (a b : Option V) : Option V :=
  match a with
  | some v => some v
  | none => b

mutual
/-- Recursive listing of all `(key, value)` pairs below a node, keys prefixed by `p`:
the node's own pair first, then the children in key order. -/
def toListN (p : List Nat) : TNode V → List (List Nat × V)
  | .mk (some x) cs => (p, x) :: toListC p cs
  | .mk none cs => toListC p cs
/-- Listing over a child list. -/
def toListC (p : List Nat) : List (Nat × TNode V) → List (List Nat × V)
  | [] => []
  | (b, c) :: cs => toListN (p ++ [b]) c ++ toListC p cs
end

/-- Strict byte-lexicographic order on keys (as a boolean test). -/
def lexLtB : List Nat → List Nat → Bool
  | [], [] => false
  | [], _ :: _ => true
  | _ :: _, [] => false
  | a :: as, b :: bs => decide (a < b) || (decide (a = b) && lexLtB as bs)

mutual
/-- Total node count, used as the termination measure of the iterator loop. -/
def nsize : TNode V → Nat
  | .mk _ cs => 1 + nsizeC cs
def nsizeC : List (Nat × TNode V) → Nat
  | [] => 0
  | (_, c) :: cs => nsize c + nsizeC cs
end

/-- Remaining weight of an iterator stack. -/
def stackWeight (st : List (List Nat × TNode V)) : Nat :=
  (st.map fun e => nsize e.2).sum

/-- The collected output of `TrieMapIterator::next` run to exhaustion: pop a
`(path, node)` frame, push the children (the Rust code pushes them in reverse
onto a vector stack, so they are popped smallest byte first — head order here),
and yield the node's pair when a value is present. -/
def iterAll : List (List Nat × TNode V) → List (List Nat × V)
  | [] => []
  | (p, TNode.mk (some v) cs) :: rest =>
    (p, v) :: iterAll ((cs.map fun bc => (p ++ [bc.1], bc.2)) ++ rest)
  | (p, TNode.mk none cs) :: rest =>
    iterAll ((cs.map fun bc => (p ++ [bc.1], bc.2)) ++ rest)
termination_by st => stackWeight st
decreasing_by
  all_goals
    (have hpush : ∀ (cs : List (Nat × TNode V)) (p : List Nat)
        (rest : List (List Nat × TNode V)),
        stackWeight ((cs.map fun bc => (p ++ [bc.1], bc.2)) ++ rest) =
          nsizeC cs + stackWeight rest := by
      intro cs
      induction cs with
      | nil => intro p rest; simp [stackWeight, nsizeC]
      | cons hd tl ih =>
        intro p rest
        obtain ⟨b, c⟩ := hd
        have ih2 := ih p rest
        simp only [List.map_cons, List.cons_append, stackWeight, List.map, List.sum_cons,
          List.append_eq] at ih2 ⊢
        rw [nsizeC]
        omega
     first
     | (rw [hpush]
        simp only [stackWeight, List.map, List.sum_cons, nsize]
        omega)
     | (simp only [List.append_eq]
        rw [hpush]
        simp only [stackWeight, List.map, List.sum_cons, nsize]
        omega))

/-- Specification of a full iterator run as the concatenation of per-frame listings. -/
def stackList : List (List Nat × TNode V) → List (List Nat × V)
  | [] => []
  | e :: st => toListN e.1 e.2 ++ stackList st

end TNode

/-- `BytesTrieMap<V>`: the root node. -/
structure BytesTrieMap (V : Type) where
  root : TNode V

namespace BytesTrieMap

variable {V : Type}

/-- `BytesTrieMap::new()`. -/
def nu : BytesTrieMap V := ⟨TNode.nu⟩

/-- `BytesTrieMap::insert` (the returned previous value is irrelevant to the
claims about the map's state). -/
def insert (m : BytesTrieMap V) (k : List Nat) (v : V) : BytesTrieMap V :=
  ⟨m.root.insertN k v⟩

/-- `BytesTrieMap::get`. -/
def get (m : BytesTrieMap V) (k : List Nat) : Option V :=
  m.root.getN k

/-- `BytesTrieMap::contains_key`. -/
def contains_key (m : BytesTrieMap V) (k : List Nat) : Bool :=
  (m.get k).isSome

/-- `BytesTrieMap::len` = `count_values(&self.root)`. -/
def len (m : BytesTrieMap V) : Nat :=
  TNode.countN m.root

/-- `BytesTrieMap::union`: clone and `union_with`. -/
def union (m o : BytesTrieMap V) : BytesTrieMap V :=
  ⟨TNode.unionN m.root o.root⟩

/-- `BytesTrieMap::intersection`. -/
def intersection (m o : BytesTrieMap V) : BytesTrieMap V :=
  ⟨TNode.interN m.root o.root⟩

/-- `BytesTrieMap::difference`: clone and `difference_with`. -/
def difference (m o : BytesTrieMap V) : BytesTrieMap V :=
  ⟨TNode.diffN m.root o.root⟩

/-- Structural invariant: every `BTreeMap` in the trie is sorted. -/
def wf (m : BytesTrieMap V) : Bool := TNode.wfN m.root

/-- `BytesTrieMap::iter().collect::<Vec<_>>()`: run the iterator machine started
on the single frame `(Vec::new(), &root)` to exhaustion. -/
def iter (m : BytesTrieMap V) : List (List Nat × V) :=
  TNode.iterAll [([], m.root)]

/-- The recursive listing of the map (the specification the iterator is matched
against). -/
def toList (m : BytesTrieMap V) : List (List Nat × V) :=
  TNode.toListN [] m.root

/-- The keys carrying a value, in listing order. -/
def keyList (m : BytesTrieMap V) : List (List Nat) :=
  (toList m).map Prod.fst

end BytesTrieMap

/-- A concrete sample map used by witnesses. -/
def wmapA : BytesTrieMap Nat :=
  ((BytesTrieMap.nu.insert [1, 2] 5).insert [3] 7).insert [1] 4

/-- A second concrete sample map used by witnesses. -/
def wmapB : BytesTrieMap Nat :=
  ((BytesTrieMap.nu.insert [1, 2] 9).insert [4] 8).insert [3] 6

/-- The tokenizer state of `ParDataParser` in the non-interning build: the token
count and the number of truncated symbols (the 64-byte scratch buffer is
represented by the returned bytes themselves). -/
structure ParDataParser where
  count : Nat
  truncated : Nat

/-- `ParDataParser::new`: the counter starts at 3 and nothing is truncated yet. -/
def ParDataParser.nu : ParDataParser := ⟨3, 0⟩

/-- `ParDataParser::tokenizer` in the non-interning build: bump the counter,
clamp the length at 63 (counting a truncation), copy the first `l` bytes of the
input into the scratch buffer and return that slice. -/
def ParDataParser.tokenizer (p : ParDataParser) (s : List Nat) : List Nat × ParDataParser :=
  let p1 : ParDataParser := ⟨p.count + 1, p.truncated⟩
  let l := s.length
  if l > 63 then
    (s.take 63, ⟨p1.count, p1.truncated + 1⟩)
  else
    (s.take l, p1)

/-- `ExprStructure` of `kernel/src/expr_query.rs`. -/
inductive ExprS where
  | symbol (s : List Nat)
  | variable (name : String)
  | compound (arity : Nat) (children : List ExprS)

/-- `VariableType` of `kernel/src/pattern_matching.rs`. -/
inductive VarType where
  | expression
  | sequence
  | symbol
  | compound
deriving DecidableEq

/-- `Variable` of `kernel/src/pattern_matching.rs`. -/
structure Var where
  name : String
  id : Nat
  var_type : VarType
deriving DecidableEq

/-- `PropertyCheck` of `kernel/src/pattern_matching.rs`. -/
inductive PropertyCheck where
  | isSymbol
  | isVariable
  | isCompound
  | hasArity (a : Nat)
  | containsSymbol (s : List Nat)
  | depthEquals (d : Nat)
  | depthGreaterThan (d : Nat)
  | depthLessThan (d : Nat)

mutual
/-- `PatternStructure` of `kernel/src/pattern_matching.rs`. -/
inductive PatternS where
  | symbol (s : List Nat)
  | variable (v : Var)
  | compound (arity : Nat) (patterns : List PatternS)
  | wildcard
  | conditional (pattern : PatternS) (condition : Cond)
  | alternative (alts : List PatternS)
  | sequence (patterns : List PatternS) (min_matches : Nat) (max_matches : Option Nat)
/-- `Condition` of `kernel/src/pattern_matching.rs`; the `fn` pointer of
`Predicate` becomes a Lean function. -/
inductive Cond where
  | predicate (f : ExprS → Bool)
  | unifiable (pattern : PatternS)
  | property (p : PropertyCheck)
end

mutual
/-- `UnificationEngine::expressions_equal`. -/
def expressions_equal : ExprS → ExprS → Bool
  | .symbol s1, .symbol s2 => s1 = s2
  | .variable v1, .variable v2 => v1 = v2
  | .compound a1 c1, .compound a2 c2 =>
    a1 = a2 && c1.length = c2.length && expressions_equal_list c1 c2
  | _, _ => false
/-- The zipped `all` of `expressions_equal` over children. -/
def expressions_equal_list : List ExprS → List ExprS → Bool
  | [], _ => true
  | _ :: _, [] => true
  | e1 :: c1, e2 :: c2 => expressions_equal e1 e2 && expressions_equal_list c1 c2
end

/-- `UnificationEngine::type_compatible`. -/
def type_compatible : ExprS → VarType → Bool
  | _, .expression => true
  | .symbol _, .symbol => true
  | .compound _ _, .compound => true
  | _, _ => false

mutual
/-- `UnificationEngine::contains_symbol`. -/
def contains_symbol : ExprS → List Nat → Bool
  | .symbol s, target => s = target
  | .variable _, _ => false
  | .compound _ children, target => contains_symbol_list children target
def contains_symbol_list : List ExprS → List Nat → Bool
  | [], _ => false
  | c :: cs, target => contains_symbol c target || contains_symbol_list cs target
end

mutual
/-- `UnificationEngine::calculate_depth`. -/
def calculate_depth : ExprS → Nat
  | .symbol _ => 1
  | .variable _ => 1
  | .compound _ children => 1 + calculate_depth_list children
def calculate_depth_list : List ExprS → Nat
  | [] => 0
  | c :: cs => max (calculate_depth c) (calculate_depth_list cs)
end

/-- `UnificationEngine::check_property`. -/
def check_property (e : ExprS) : PropertyCheck → Bool
  | .isSymbol => match e with | .symbol _ => true | _ => false
  | .isVariable => match e with | .variable _ => true | _ => false
  | .isCompound => match e with | .compound _ _ => true | _ => false
  | .hasArity a => match e with | .compound a2 _ => a2 = a | _ => false
  | .containsSymbol s => contains_symbol e s
  | .depthEquals d => calculate_depth e = d
  | .depthGreaterThan d => decide (calculate_depth e > d)
  | .depthLessThan d => decide (calculate_depth e < d)

/-- `UnificationEngine::check_condition`. -/
def check_condition (e : ExprS) : Cond → Bool
  | .predicate f => f e
  | .property p => check_property e p
  | .unifiable pattern =>
    match e, pattern with
    | _, .wildcard => true
    | .symbol s1, .symbol s2 => s1 = s2
    | _, _ => false

/-- Lookup in the `variables` binding map (`HashMap<Variable, ExprStructure>`). -/
def varsGet : List (Var × ExprS) → Var → Option ExprS
  | [], _ => none
  | (v, e) :: rest, q => if q = v then some e else varsGet rest q

/-- `UnificationEngine::bind_variable`: an existing binding must be equal, a new
binding is stored when the variable type accepts the expression. -/
def bind_variable (e : ExprS) (v : Var) (vars : List (Var × ExprS)) :
    Bool × List (Var × ExprS) :=
  match varsGet vars v with
  | some existing => (expressions_equal e existing, vars)
  | none =>
    if type_compatible e v.var_type then (true, (v, e) :: vars)
    else (false, vars)

mutual
/-- `UnificationEngine::unify_recursive`, with the `&mut MatchingContext` made
explicit: `depth` and `max_depth` are passed down (the Rust code increments on
entry and decrements on exit, so the caller's depth is unchanged when the call
returns), and the `variables` binding map is threaded through. -/
def unifyRecAux (e : ExprS) (p : PatternS) (depth max_depth : Nat)
    (vars : List (Var × ExprS)) : Bool × List (Var × ExprS) :=
  if depth ≥ max_depth then (false, vars)
  else
    match p with
    | .wildcard => (true, vars)
    | .variable v => bind_variable e v vars
    | .symbol s2 =>
      match e with
      | .symbol s1 => (decide (s1 = s2), vars)
      | _ => (false, vars)
    | .compound a2 p2 =>
      match e with
      | .compound a1 c1 =>
        if a1 = a2 ∧ c1.length = p2.length then
          unifyZip c1 p2 (depth + 1) max_depth vars
        else (false, vars)
      | _ => (false, vars)
    | .conditional pattern condition =>
      if check_condition e condition then
        unifyRecAux e pattern (depth + 1) max_depth vars
      else (false, vars)
    | .alternative alts => unifyAny e alts (depth + 1) max_depth vars
    | .sequence patterns mn mx =>
      match e with
      | .compound _ children =>
        if children.length < mn then (false, vars)
        else if (match mx with | some m => decide (children.length > m) | none => false) then
          (false, vars)
        else if patterns.length ≠ children.length then (false, vars)
        else unifyZip children patterns (depth + 1) max_depth vars
      | _ => (false, vars)
termination_by (max_depth - depth, 0, 0)
/-- The zipped short-circuiting `all` over children/pattern pairs, threading the
binding map. -/
def unifyZip (es : List ExprS) (ps : List PatternS) (depth max_depth : Nat)
    (vars : List (Var × ExprS)) : Bool × List (Var × ExprS) :=
  match es, ps with
  | [], _ => (true, vars)
  | _ :: _, [] => (true, vars)
  | e :: es2, p :: ps2 =>
    let r := unifyRecAux e p depth max_depth vars
    if r.1 then unifyZip es2 ps2 depth max_depth r.2 else (false, r.2)
termination_by (max_depth - depth, 1, es.length)
/-- The short-circuiting `any` over alternative patterns, threading the binding
map. -/
def unifyAny (e : ExprS) (alts : List PatternS) (depth max_depth : Nat)
    (vars : List (Var × ExprS)) : Bool × List (Var × ExprS) :=
  match alts with
  | [] => (false, vars)
  | a :: rest =>
    let r := unifyRecAux e a depth max_depth vars
    if r.1 then (true, r.2) else unifyAny e rest depth max_depth r.2
termination_by (max_depth - depth, 1, alts.length)
end

/-- `MatchingContext` of `kernel/src/pattern_matching.rs` (the unused
`constraints` field is omitted; the `variables` field is called `varMap`
because `variables` is a reserved word in Lean). -/
structure MatchingContext where
  depth : Nat
  varMap : List (Var × ExprS)
  max_depth : Nat

/-- `unify_recursive` at the context level: the result and the context as left
behind by the call (depth restored, bindings possibly extended). -/
def unify_recursive (e : ExprS) (p : PatternS) (ctx : MatchingContext) :
    Bool × MatchingContext :=
  let r := unifyRecAux e p ctx.depth ctx.max_depth ctx.varMap
  (r.1, ⟨ctx.depth, r.2, ctx.max_depth⟩)

/-- `UnificationConfig` of `kernel/src/pattern_matching.rs`. -/
structure UnificationConfig where
  max_depth : Nat
  occurs_check : Bool
  enable_caching : Bool
  max_variables : Nat

/-- `UnificationConfig::default()`. -/
def UnificationConfig.defaultConfig : UnificationConfig :=
  ⟨100, true, true, 1000⟩

/-! ### The tag-byte alphabet and expression tokens

The `mork_bytestring` crate is an external collaborator of the kernel (its
source is not part of this repository), so its tag alphabet is modelled from
the spec (§3.1): a byte carries a 2-bit tag in its top bits — `11_000000` is
NewVar, `11_ssssss` with `s ∈ [1,63]` announces `s` symbol bytes, `10_iiiiii`
is VarRef(i), `00_aaaaaa` is Arity(a), and the `01` tag space is reserved. -/
/-- Modelled from the spec: `mork_bytestring::Tag`. -/
inductive Tag where
  | newVar
  | symbolSize (s : Nat)
  | varRef (i : Nat)
  | arity (a : Nat)
deriving DecidableEq, Repr

/-- Modelled from the spec: `mork_bytestring::item_byte`. -/
def item_byte : Tag → Nat
  | .newVar => 192
  | .symbolSize s => 192 + s
  | .varRef i => 128 + i
  | .arity a => a

/-- Modelled from the spec: `mork_bytestring::byte_item`; a reserved tag byte
(`01` top bits) has no item. -/
def byte_item (b : Nat) : Option Tag :=
  if b = 192 then some .newVar
  else if 192 < b ∧ b ≤ 255 then some (.symbolSize (b - 192))
  else if 128 ≤ b ∧ b < 192 then some (.varRef (b - 128))
  else if b < 64 then some (.arity b)
  else none

/-- One lexical token of an encoded expression (a symbol token carries its
payload bytes). -/
inductive EToken where
  | newVar
  | varRef (i : Nat)
  | symbol (s : List Nat)
  | arity (a : Nat)
deriving DecidableEq, Repr

/-- Modelled from the spec: the token scan of an encoded byte buffer performed
by `mork_bytestring::traverseh!`, producing each token together with its byte
offset.  The scan stops at a reserved byte or at a symbol running past the end
of the buffer (a malformed buffer). -/
def tokensFrom : List Nat → Nat → List (Nat × EToken)
  | [], _ => []
  | b :: rest, off =>
    match byte_item b with
    | some .newVar => (off, .newVar) :: tokensFrom rest (off + 1)
    | some (.varRef i) => (off, .varRef i) :: tokensFrom rest (off + 1)
    | some (.arity a) => (off, .arity a) :: tokensFrom rest (off + 1)
    | some (.symbolSize s) =>
      if s ≤ rest.length then (off, .symbol (rest.take s)) :: tokensFrom (rest.drop s) (off + 1 + s)
      else []
    | none => []
termination_by bytes _ => bytes.length
decreasing_by
  all_goals first
  | (simp_wf; omega)
  | (simp_wf; simp [List.length_drop]; omega)
  | simp_wf

/-- Modelled from the spec: reading the tokens of one complete encoded
expression with `ExprZipper::item`/`ExprZipper::next` (`next` returns false
once the expression is complete).  `needed` counts outstanding sub-expressions;
the result pairs the token list with the number of bytes consumed. -/
def exprTokens : Nat → List Nat → Option (List EToken × Nat)
  | 0, _ => some ([], 0)
  | needed + 1, [] => none
  | needed + 1, b :: rest =>
    match byte_item b with
    | some .newVar =>
      (exprTokens needed rest).map fun tc => (.newVar :: tc.1, tc.2 + 1)
    | some (.varRef i) =>
      (exprTokens needed rest).map fun tc => (.varRef i :: tc.1, tc.2 + 1)
    | some (.arity a) =>
      (exprTokens (needed + a) rest).map fun tc => (.arity a :: tc.1, tc.2 + 1)
    | some (.symbolSize s) =>
      if s ≤ rest.length then
        (exprTokens needed (rest.drop s)).map fun tc => (.symbol (rest.take s) :: tc.1, tc.2 + 1 + s)
      else none
    | none => none
termination_by _ bytes => bytes.length
decreasing_by
  all_goals first
  | (simp_wf; omega)
  | (simp_wf; simp [List.length_drop]; omega)
  | simp_wf

/-- Modelled from the spec: `Expr::span().len()` — the byte length of the one
complete expression at the start of the buffer. -/
def exprSpanLen (bytes : List Nat) : Option Nat :=
  (exprTokens 1 bytes).map Prod.snd

/-- Modelled from the spec (§3.2): the constant prefix of an encoded
expression — the maximal leading byte run strictly before the first
variable-introducing byte (NewVar or VarRef), or the whole buffer when it is
variable-free (`Expr::prefix().unwrap_or_else(|_| span)`). -/
def prefixBytes : List Nat → List Nat
  | [] => []
  | b :: rest =>
    match byte_item b with
    | some .newVar => []
    | some (.varRef _) => []
    | some (.arity _) => b :: prefixBytes rest
    | some (.symbolSize s) =>
      if s ≤ rest.length then (b :: rest.take s) ++ prefixBytes (rest.drop s)
      else b :: rest
    | none => []
termination_by bytes => bytes.length
decreasing_by
  all_goals first
  | (simp_wf; omega)
  | (simp_wf; simp [List.length_drop]; omega)
  | simp_wf

/-! ### The opcode alphabet (`space_temporary.rs`, module `stack_actions`) -/
def ITER_AT_DEPTH : Nat := 0

def ITER_SYMBOL_SIZE : Nat := 1

def ITER_SYMBOLS : Nat := 2

def ITER_VARIABLES : Nat := 3

def ITER_ARITIES : Nat := 4

def ITER_EXPR : Nat := 5

def ITER_NESTED : Nat := 6

def ITER_SYMBOL : Nat := 7

def ITER_ARITY : Nat := 8

def ITER_VAR_SYMBOL : Nat := 9

def ITER_VAR_ARITY : Nat := 10

def ACTION : Nat := 11

def BEGIN_RANGE : Nat := 12

def FINALIZE_RANGE : Nat := 13

def REFER_RANGE : Nat := 14

def RESERVED : Nat := 15

/-- The opcodes emitted for one pattern token by the compiler's traversal
callbacks in `referential_bidirectional_matching_stack_traverse`. -/
def emitTok : EToken → List Nat
  | .newVar => [BEGIN_RANGE, ITER_EXPR, FINALIZE_RANGE]
  | .varRef i => [REFER_RANGE, i]
  | .symbol s => [ITER_VAR_SYMBOL, s.length] ++ s
  | .arity a => [ITER_VAR_ARITY, a]

/-- `referential_bidirectional_matching_stack_traverse(e, from)`: walk the
tokens of the pattern, emit the opcode group of each token whose byte offset
is not below `fromOff` (the constant-prefix portion is skipped), then reverse
the vector so that it can be consumed right-to-left as a stack. -/
def referential_bidirectional_matching_stack_traverse (e : List Nat) (fromOff : Nat) :
    List Nat :=
  ((tokensFrom e 0).foldl
    (fun acc ot => if ot.1 < fromOff then acc else acc ++ emitTok ot.2) []).reverse

/-- The driver's stack assembly in `query_multi_impl`: `stack[0] = ACTION`,
then for each pattern in reverse order append its compiled opcode stream,
compiled past its constant prefix. -/
def mkStackVec (patterns : List (List Nat)) : List Nat :=
  ACTION :: (patterns.reverse.foldl
    (fun acc p => acc ++ referential_bidirectional_matching_stack_traverse p (prefixBytes p).length)
    [])

/-! ### The trie cursor

The cursor (zipper) comes from the external pathmap crate and is modelled from
the spec (§4.3).  A cursor is a creation prefix (its absolute position), the
subtrie it was created on, and a local path; a failed `descend_to` still moves
the path (the subsequent `ascend` undoes it), matching the engine's usage
`if loc.descend_to(buf) { ... } loc.ascend(n)`. -/
/-- The node reached from `n` along `path`, if the path is present. -/
def nodeAtPath : TNode Unit → List Nat → Option (TNode Unit)
  | n, [] => some n
  | n, b :: rest =>
    match TNode.findChild n.children b with
    | some c => nodeAtPath c rest
    | none => none

/-- Modelled from the spec: a pathmap read zipper. -/
structure Zip where
  pre : List Nat
  root : TNode Unit
  path : List Nat

/-- The trie node under the cursor, when the cursor is on the trie. -/
def Zip.cur (z : Zip) : Option (TNode Unit) :=
  nodeAtPath z.root z.path

/-- `descend_to` (the returned existence bit is `onTrie` of the result). -/
def Zip.descend_to (z : Zip) (bs : List Nat) : Zip :=
  { z with path := z.path ++ bs }

/-- Whether the cursor sits on an existing trie node. -/
def Zip.onTrie (z : Zip) : Bool :=
  z.cur.isSome

/-- `ascend(n)`: drop the last `n` bytes of the local path. -/
def Zip.ascend (z : Zip) (n : Nat) : Zip :=
  { z with path := z.path.take (z.path.length - n) }

/-- `child_mask()` restricted to present bytes, in ascending byte order. -/
def Zip.child_mask (z : Zip) : List Nat :=
  match z.cur with
  | some n => n.children.map Prod.fst
  | none => []

/-- `origin_path()`: the absolute path from the trie root. -/
def Zip.origin_path (z : Zip) : List Nat :=
  z.pre ++ z.path

/-- The child bytes present under the cursor that belong to a tag-class mask
(`loc.child_mask().and(&ByteMask(..))`). -/
def maskOf (z : Zip) (l : List Nat) : List Nat :=
  z.child_mask.filter fun b => l.contains b

/-- The `SIZES` mask of `space_temporary.rs`: symbol-size bytes for sizes 1–63. -/
def SIZESlist : List Nat := (List.range 63).map fun i => item_byte (.symbolSize (i + 1))

/-- The `ARITIES` mask of `space_temporary.rs`: arity bytes for arities 1–63. -/
def ARITIESlist : List Nat := (List.range 63).map fun i => item_byte (.arity (i + 1))

/-- The `VARS` mask of `space_temporary.rs`: the NewVar byte and all VarRef bytes. -/
def VARSlist : List Nat :=
  item_byte .newVar :: ((List.range 64).map fun i => item_byte (.varRef i))

mutual
/-- All paths to trie nodes exactly `d` bytes below a node, in ascending byte
order — the set of nodes the `ITER_AT_DEPTH` cursor walk visits. -/
def pathsAtDepth : TNode Unit → Nat → List (List Nat)
  | _, 0 => [[]]
  | .mk _ cs, d + 1 => pathsAtDepthC cs d
/-- `pathsAtDepth` over a child list. -/
def pathsAtDepthC : List (Nat × TNode Unit) → Nat → List (List Nat)
  | [], _ => []
  | (b, c) :: cs, d => ((pathsAtDepth c d).map fun p => b :: p) ++ pathsAtDepthC cs d
end

/-! ### The referential transition engine

`referential_transition` interprets the opcode stack against a cursor.  The
machine state is made explicit: the stack is a byte list whose head is the
byte under the `last` pointer, so `*last` is `head`, popping is `tail`, and a
push is `cons`.  The engine is generic in the action `f` exactly as the Rust
function is generic in `F: FnMut(&[Expr], &mut Z)`; an action may abort with an
error `E` (the `longjmp` path of `query_multi_impl`), which propagates without
touching the stack further, and the interpreter is fueled: `none` means the
fuel ran out (or an ill-formed program read past the stack). -/
/-- The engine state: opcode stack, cursor, captured reference offsets (each a
byte offset into the absolute path, as `Expr { ptr: origin + len }`), and the
action's accumulator. -/
structure TState (A : Type) where
  stack : List Nat
  z : Zip
  refs : List Nat
  acc : A

/-- Sequencing of engine results: fuel exhaustion and aborts propagate. -/
def andThen {E A : Type} (r : Option (Except E (TState A)))
    (k : TState A → Option (Except E (TState A))) : Option (Except E (TState A)) :=
  match r with
  | none => none
  | some (.error e) => some (.error e)
  | some (.ok s) => k s

/-- The `ITER_VARIABLES` loop over the masked child bytes: descend, run the
rest of the program, ascend. -/
def forVars {E A : Type} (cont : List Nat → Zip → List Nat → A → Option (Except E (TState A))) :
    List Nat → List Nat → Zip → List Nat → A → Option (Except E (TState A))
  | [], st, z, refs, acc => some (.ok ⟨st, z, refs, acc⟩)
  | b :: bs, st, z, refs, acc =>
    if (z.descend_to [b]).onTrie then
      andThen (cont st (z.descend_to [b]) refs acc) fun s =>
        forVars cont bs s.stack (s.z.ascend 1) s.refs s.acc
    else
      forVars cont bs st ((z.descend_to [b]).ascend 1) refs acc

/-- The `ITER_SYMBOL_SIZE` loop: for each symbol-size child byte, slip the size
under the saved top opcode, recurse, and restore. -/
def forSymSizes {E A : Type}
    (cont : List Nat → Zip → List Nat → A → Option (Except E (TState A))) :
    List Nat → List Nat → Zip → List Nat → A → Option (Except E (TState A))
  | [], st, z, refs, acc => some (.ok ⟨st, z, refs, acc⟩)
  | b :: bs, st, z, refs, acc =>
    match byte_item b with
    | some (.symbolSize s) =>
      if (z.descend_to [b]).onTrie then
        match st with
        | [] => none
        | lastv :: rest2 =>
          andThen (cont (lastv :: s :: rest2) (z.descend_to [b]) refs acc) fun s2 =>
            forSymSizes cont bs (lastv :: s2.stack.drop 2) (s2.z.ascend 1) s2.refs s2.acc
      else
        forSymSizes cont bs st ((z.descend_to [b]).ascend 1) refs acc
    | _ => none

/-- The `ITER_ARITIES` loop: for each arity child byte, slip the arity under
the saved top opcode, recurse, and restore. -/
def forArities {E A : Type}
    (cont : List Nat → Zip → List Nat → A → Option (Except E (TState A))) :
    List Nat → List Nat → Zip → List Nat → A → Option (Except E (TState A))
  | [], st, z, refs, acc => some (.ok ⟨st, z, refs, acc⟩)
  | b :: bs, st, z, refs, acc =>
    match byte_item b with
    | some (.arity a) =>
      if (z.descend_to [b]).onTrie then
        match st with
        | [] => none
        | lastv :: rest2 =>
          andThen (cont (lastv :: a :: rest2) (z.descend_to [b]) refs acc) fun s2 =>
            forArities cont bs (lastv :: s2.stack.drop 2) (s2.z.ascend 1) s2.refs s2.acc
      else
        forArities cont bs st ((z.descend_to [b]).ascend 1) refs acc
    | _ => none

/-- The `ITER_AT_DEPTH` walk: visit every node `level` bytes below the cursor
(the Rust loop does this with `descend_first_byte`/`to_next_sibling_byte`/
`ascend_byte` moves), running the rest of the program at each, cursor restored
after each visit. -/
def forPaths {E A : Type}
    (cont : List Nat → Zip → List Nat → A → Option (Except E (TState A))) :
    List (List Nat) → List Nat → Zip → List Nat → A → Option (Except E (TState A))
  | [], st, z, refs, acc => some (.ok ⟨st, z, refs, acc⟩)
  | p :: ps, st, z, refs, acc =>
    andThen (cont st (z.descend_to p) refs acc) fun s =>
      forPaths cont ps s.stack (s.z.ascend p.length) s.refs s.acc

/-- The opcodes the on-the-fly compilation inside `REFER_RANGE` pushes for one
token of the captured sub-expression. -/
def emitRef : EToken → List Nat
  | .newVar => [ITER_EXPR]
  | .varRef _ => [ITER_EXPR]
  | .symbol s => [ITER_VAR_SYMBOL, s.length] ++ s
  | .arity a => [ITER_VAR_ARITY, a]

/-- `referential_transition`: pop the next opcode, run its handler (which pops
its operands, performs its trie motions, recurses into the rest of the program,
and pushes its operands back), and restore the opcode byte on return.  The
unrolled `CALL` levels of the Rust macro expansion are a performance device
with identical semantics to the single-level dispatch modelled here. -/
def rt {E A : Type} (act : A → List Nat → Zip → Except E A) :
    Nat → List Nat → Zip → List Nat → A → Option (Except E (TState A))
  | 0, _, _, _, _ => none
  | fuel + 1, st, z, refs, acc =>
    match st with
    | [] => none
    | op :: rest =>
      andThen
        (if op = ACTION then
          match act acc refs z with
          | .ok a2 => some (.ok ⟨rest, z, refs, a2⟩)
          | .error e => some (.error e)
        else if op = ITER_AT_DEPTH then
          match rest with
          | [] => none
          | level :: rest2 =>
            andThen (forPaths (fun st2 z2 r2 a2 => rt act fuel st2 z2 r2 a2)
                (match z.cur with
                 | some n => pathsAtDepth n level
                 | none => []) rest2 z refs acc) fun s =>
              some (.ok ⟨level :: s.stack, s.z, s.refs, s.acc⟩)
        else if op = ITER_SYMBOL_SIZE then
          forSymSizes (fun st2 z2 r2 a2 => rt act fuel st2 z2 r2 a2)
            (maskOf z SIZESlist) rest z refs acc
        else if op = ITER_SYMBOLS then
          andThen (rt act fuel (ITER_SYMBOL_SIZE :: ITER_AT_DEPTH :: rest) z refs acc) fun s =>
            some (.ok ⟨s.stack.tail.tail, s.z, s.refs, s.acc⟩)
        else if op = ITER_VARIABLES then
          forVars (fun st2 z2 r2 a2 => rt act fuel st2 z2 r2 a2)
            (maskOf z VARSlist) rest z refs acc
        else if op = ITER_ARITIES then
          forArities (fun st2 z2 r2 a2 => rt act fuel st2 z2 r2 a2)
            (maskOf z ARITIESlist) rest z refs acc
        else if op = ITER_EXPR then
          andThen (rt act fuel (ITER_VARIABLES :: rest) z refs acc) fun s1 =>
          andThen (rt act fuel (ITER_SYMBOLS :: s1.stack.tail) s1.z s1.refs s1.acc) fun s2 =>
          andThen (rt act fuel (ITER_ARITIES :: ITER_NESTED :: s2.stack.tail) s2.z s2.refs
              s2.acc) fun s3 =>
            some (.ok ⟨s3.stack.tail.tail, s3.z, s3.refs, s3.acc⟩)
        else if op = ITER_NESTED then
          match rest with
          | [] => none
          | arity :: rest2 =>
            if arity = 0 then
              andThen (rt act fuel rest2 z refs acc) fun s =>
                some (.ok ⟨arity :: s.stack, s.z, s.refs, s.acc⟩)
            else
              andThen (rt act fuel
                  (ITER_EXPR :: (List.replicate (arity - 1) ITER_EXPR ++ rest2)) z refs acc)
                fun s =>
                some (.ok ⟨arity :: (s.stack.tail.drop (arity - 1)), s.z, s.refs, s.acc⟩)
        else if op = ITER_SYMBOL then
          match rest with
          | [] => none
          | size :: rest2 =>
            if rest2.length < size then none
            else
              andThen
                (if (z.descend_to [item_byte (.symbolSize size)]).onTrie then
                  if ((z.descend_to [item_byte (.symbolSize size)]).descend_to
                      (rest2.take size)).onTrie then
                    andThen (rt act fuel (rest2.drop size)
                        ((z.descend_to [item_byte (.symbolSize size)]).descend_to
                          (rest2.take size)) refs acc) fun s =>
                      some (.ok ⟨s.stack, (s.z.ascend size).ascend 1, s.refs, s.acc⟩)
                  else
                    some (.ok ⟨rest2.drop size,
                      (((z.descend_to [item_byte (.symbolSize size)]).descend_to
                        (rest2.take size)).ascend size).ascend 1, refs, acc⟩)
                else
                  some (.ok ⟨rest2.drop size,
                    (z.descend_to [item_byte (.symbolSize size)]).ascend 1, refs, acc⟩))
                fun s =>
                  some (.ok ⟨size :: (rest2.take size ++ s.stack), s.z, s.refs, s.acc⟩)
        else if op = ITER_VAR_SYMBOL then
          match rest with
          | [] => none
          | size :: rest2 =>
            if rest2.length < size then none
            else
              andThen (rt act fuel (ITER_VARIABLES :: rest2.drop size) z refs acc) fun s1 =>
                andThen
                  (if ((s1.z).descend_to [item_byte (.symbolSize size)]).onTrie then
                    if (((s1.z).descend_to [item_byte (.symbolSize size)]).descend_to
                        (rest2.take size)).onTrie then
                      andThen (rt act fuel s1.stack.tail
                          (((s1.z).descend_to [item_byte (.symbolSize size)]).descend_to
                            (rest2.take size)) s1.refs s1.acc) fun s2 =>
                        some (.ok ⟨s2.stack, (s2.z.ascend size).ascend 1, s2.refs, s2.acc⟩)
                    else
                      some (.ok ⟨s1.stack.tail,
                        ((((s1.z).descend_to [item_byte (.symbolSize size)]).descend_to
                          (rest2.take size)).ascend size).ascend 1, s1.refs, s1.acc⟩)
                  else
                    some (.ok ⟨s1.stack.tail,
                      ((s1.z).descend_to [item_byte (.symbolSize size)]).ascend 1,
                      s1.refs, s1.acc⟩))
                  fun s3 =>
                    some (.ok ⟨size :: (rest2.take size ++ s3.stack), s3.z, s3.refs, s3.acc⟩)
        else if op = ITER_ARITY then
          match rest with
          | [] => none
          | arity :: rest2 =>
            if (z.descend_to [item_byte (.arity arity)]).onTrie then
              andThen (rt act fuel rest2 (z.descend_to [item_byte (.arity arity)]) refs acc)
                fun s =>
                some (.ok ⟨arity :: s.stack, s.z.ascend 1, s.refs, s.acc⟩)
            else
              some (.ok ⟨arity :: rest2, (z.descend_to [item_byte (.arity arity)]).ascend 1,
                refs, acc⟩)
        else if op = ITER_VAR_ARITY then
          match rest with
          | [] => none
          | arity :: rest2 =>
            andThen (rt act fuel (ITER_VARIABLES :: rest2) z refs acc) fun s1 =>
              if ((s1.z).descend_to [item_byte (.arity arity)]).onTrie then
                andThen (rt act fuel s1.stack.tail
                    ((s1.z).descend_to [item_byte (.arity arity)]) s1.refs s1.acc) fun s2 =>
                  some (.ok ⟨arity :: s2.stack, s2.z.ascend 1, s2.refs, s2.acc⟩)
              else
                some (.ok ⟨arity :: s1.stack.tail,
                  ((s1.z).descend_to [item_byte (.arity arity)]).ascend 1, s1.refs, s1.acc⟩)
        else if op = BEGIN_RANGE then
          andThen (rt act fuel rest z (refs ++ [(z.origin_path).length]) acc) fun s =>
            some (.ok ⟨s.stack, s.z, s.refs.dropLast, s.acc⟩)
        else if op = FINALIZE_RANGE then
          rt act fuel rest z refs acc
        else if op = REFER_RANGE then
          match rest with
          | [] => none
          | index :: rest2 =>
            match refs.get? index with
            | none => none
            | some off =>
              match exprTokens 1 ((z.origin_path).drop off) with
              | none => none
              | some tc =>
                andThen (rt act fuel (tc.1.flatMap emitRef ++ rest2) z refs acc) fun s =>
                  some (.ok ⟨index :: s.stack.drop (tc.1.flatMap emitRef).length,
                    s.z, s.refs, s.acc⟩)
        else none)
        fun s => some (.ok ⟨op :: s.stack, s.z, s.refs, s.acc⟩)

/-- A single match delivered to the action callback: the captured reference
offsets and the cursor location (`refs`, `loc` in `query_multi_impl`). -/
abbrev QMatch : Type := List Nat × Zip

/-- The pure collecting callback: always succeeds and logs the match. -/
def actCollect {E : Type} : List QMatch → List Nat → Zip → Except E (List QMatch) :=
  fun l refs z => .ok (l ++ [(refs, z)])

/-- The driver callback of `query_multi_impl`: run the hook; on success count
the candidate, on failure abort with the hook error (the `longjmp` path, which
propagates out without further matching). -/
def actEffect {E : Type} (eff : List Nat → Zip → Except E Unit) :
    Nat → List Nat → Zip → Except E Nat :=
  fun c refs z =>
    match eff refs z with
    | .ok _ => .ok (c + 1)
    | .error e => .error e

/-- The first error the hook raises along a list of matches, if any. -/
def firstErrOn {E : Type} (eff : List Nat → Zip → Except E Unit) :
    List QMatch → Option E
  | [] => none
  | m :: r =>
    match eff m.1 m.2 with
    | .error e => some e
    | .ok _ => firstErrOn eff r

/-- Simulation between the collecting run and the counting/aborting run of one
engine fragment: whenever the collecting run returns normally having appended
`delta` to the match log, the effectful run aborts with the first hook error
on `delta`, or returns the same machine state with the candidate count
advanced by `delta.length`. -/
def SimRun {E : Type} (eff : List Nat → Zip → Except E Unit)
    (r1 : Option (Except E (TState (List QMatch)))) (l : List QMatch)
    (r2 : Nat → Option (Except E (TState Nat))) : Prop :=
  ∀ sC, r1 = some (.ok sC) → ∀ n : Nat, ∃ delta : List QMatch,
    sC.acc = l ++ delta ∧
    r2 n =
      (match firstErrOn eff delta with
       | some e => some (.error e)
       | none => some (.ok ⟨sC.stack, sC.z, sC.refs, n + delta.length⟩))

/-- The simulation, for every entry state of a continuation. -/
def SimCont {E : Type} (eff : List Nat → Zip → Except E Unit)
    (c1 : List Nat → Zip → List Nat → List QMatch → Option (Except E (TState (List QMatch))))
    (c2 : List Nat → Zip → List Nat → Nat → Option (Except E (TState Nat))) : Prop :=
  ∀ st z refs l, SimRun eff (c1 st z refs l) l (c2 st z refs)

/-- Modelled from the spec (pathmap): the sub-trie a read zipper at path `p`
sees. -/
def subTrieAt (t : TNode Unit) (p : List Nat) : TNode Unit :=
  (nodeAtPath t p).getD TNode.nu

/-- Modelled from the spec (pathmap `graft`): plant the trie `src` at path
`p`, creating intermediate nodes. -/
def graftAt : TNode Unit → List Nat → TNode Unit → TNode Unit
  | _, [], src => src
  | .mk v cs, b :: p, src => .mk v (TNode.childUpdate cs b (fun c => graftAt c p src))

mutual
/-- Modelled from the spec (pathmap `ProductZipper`): the virtual trie the
product zipper walks — wherever a factor carries a value, the walk continues
into the next factor. -/
def attachAtValues : TNode Unit → TNode Unit → TNode Unit
  | .mk v cs, next =>
    match v with
    | some _ => TNode.unionN (.mk none (attachAtValuesC cs next)) next
    | none => .mk none (attachAtValuesC cs next)

def attachAtValuesC : List (Nat × TNode Unit) → TNode Unit → List (Nat × TNode Unit)
  | [], _ => []
  | bc :: rest, next => (bc.1, attachAtValues bc.2 next) :: attachAtValuesC rest next
end

/-- Modelled from the spec: the product trie `query_multi_impl` iterates.  The
primary factor is the space below the first pattern's constant prefix.  Each
secondary temp map grafts the space below the *first* pattern's prefix at the
secondary pattern's own prefix and is read back at that same prefix
(`query_multi_impl` lines 729-740), so every secondary factor is that same
primary sub-trie. -/
def queryProductRoot (space : TNode Unit) (patterns : List (List Nat)) : TNode Unit :=
  match patterns with
  | [] => TNode.nu
  | p0 :: rest =>
    rest.foldl
      (fun acc p =>
        attachAtValues acc
          (subTrieAt (graftAt TNode.nu (prefixBytes p)
              (subTrieAt space (prefixBytes p0))) (prefixBytes p)))
      (subTrieAt space (prefixBytes p0))

/-- `query_multi_impl`: assemble the driver stack (`ACTION` first, then the
compiled patterns in reverse), run the transition engine with the
counting/aborting callback over the product zipper, and translate the
outcome: a normal return yields `Ok(candidate)`, an abort propagates the
hook error (`none` models fuel exhaustion, absent from the Rust, which
recurses natively). -/
def query_multi_impl {E : Type} (eff : List Nat → Zip → Except E Unit)
    (space : TNode Unit) (patterns : List (List Nat)) (fuel : Nat) :
    Option (Except E Nat) :=
  match rt (actEffect eff) fuel (mkStackVec patterns).reverse
      ⟨prefixBytes (patterns.headD []), queryProductRoot space patterns, []⟩ [] 0 with
  | none => none
  | some (.error e) => some (.error e)
  | some (.ok s) => some (.ok s.acc)

/-- Path overlap: one path is a prefix of the other (spec §4.8: authority over
a path extends to everything below it). -/
def overlaps (p q : List Nat) : Bool := p.isPrefixOf q || q.isPrefixOf p

/-- The outstanding zipper permits of a space (modelled from the spec's
authority model, §4.8: the pathmap permit registry is not in src/). -/
structure PermitState where
  writers : List (List Nat)
  readers : List (List Nat)

/-- Modelled from the spec: an exclusive write cursor acquisition fails fast
with a path conflict when any outstanding permit overlaps the requested
path. -/
def write_zipper_at_exclusive_path (ps : PermitState) (p : List Nat) :
    Except Unit PermitState :=
  if (ps.writers.any fun q => overlaps p q) || (ps.readers.any fun q => overlaps p q) then
    .error ()
  else .ok ⟨ps.writers ++ [p], ps.readers⟩

/-- Modelled from the spec: a read cursor acquisition fails with a path
conflict when an outstanding writer overlaps the requested path. -/
def read_zipper_at_path (ps : PermitState) (p : List Nat) : Except Unit PermitState :=
  if ps.writers.any fun q => overlaps p q then .error ()
  else .ok ⟨ps.writers, ps.readers ++ [p]⟩

/-- The two error channels of `transform_multi_multi_impl`
(`Either<Conflict, HookError>`). -/
inductive TransformErr (E : Type) where
  | conflict
  | hook (e : E)

/-- The writer phase of `transform_multi_multi_impl`: for each template
prefix, run the writer hook, then acquire the exclusive write cursor; either
failure returns immediately. -/
def acquireWriters {E : Type} (writer_hook : List Nat → Except E Unit) :
    List (List Nat) → PermitState → Except (TransformErr E) PermitState
  | [], ps => .ok ps
  | p :: rest, ps =>
    match writer_hook p with
    | .error e => .error (.hook e)
    | .ok _ =>
      match write_zipper_at_exclusive_path ps p with
      | .error _ => .error .conflict
      | .ok ps2 => acquireWriters writer_hook rest ps2

/-- The reader phase `query_multi_impl` performs before matching: the reader
hook and a read cursor acquisition at the first pattern's prefix, once for
the primary zipper and once per secondary pattern (the source passes
`first_pattern_prefix` to every one of these calls). -/
def acquireReaders {E : Type} (reader_hook : List Nat → Except E Unit) (p0 : List Nat) :
    Nat → PermitState → Except (TransformErr E) PermitState
  | 0, ps => .ok ps
  | k + 1, ps =>
    match reader_hook p0 with
    | .error e => .error (.hook e)
    | .ok _ =>
      match read_zipper_at_path ps p0 with
      | .error _ => .error .conflict
      | .ok ps2 => acquireReaders reader_hook p0 k ps2

/-- Modelled from the spec (mork_bytestring): the span of the sub-expression
at byte offset `off` of the origin path. -/
def spliceAt (orig : List Nat) (off : Nat) : List Nat :=
  match exprTokens 1 (orig.drop off) with
  | some tc => (orig.drop off).take tc.2
  | none => []

/-- Modelled from the spec (mork_bytestring `Expr::substitute`): rewrite the
template, replacing each variable-introducing token by the captured
sub-expression its reference designates; `k` counts the NewVar tokens seen so
far. -/
def substAux (refs : List Nat) (orig : List Nat) : List Nat → Nat → List Nat
  | [], _ => []
  | b :: rest, k =>
    match byte_item b with
    | some .newVar =>
      (match refs.get? k with
       | some off => spliceAt orig off
       | none => [b]) ++ substAux refs orig rest (k + 1)
    | some (.varRef i) =>
      (match refs.get? i with
       | some off => spliceAt orig off
       | none => [b]) ++ substAux refs orig rest k
    | some (.symbolSize s) => (b :: rest.take s) ++ substAux refs orig (rest.drop s) k
    | some (.arity _) => b :: substAux refs orig rest k
    | none => b :: substAux refs orig rest k
termination_by bytes _ => bytes.length
decreasing_by
  all_goals first
  | (simp_wf; omega)
  | (simp_wf; simp [List.length_drop]; omega)
  | simp_wf

/-- The transform's action callback: for each template, substitute the
captured references into it and set a value at the substituted path below the
template's prefix (`wz.descend_to(&buffer[prefix.len()..]); wz.set_value(())`).
Its error type is `Empty`: this callback itself never aborts. -/
def actTransform (templates : List (List Nat)) :
    TNode Unit → List Nat → Zip → Except Empty (TNode Unit) :=
  fun t refs z =>
    .ok (templates.foldl
      (fun acc tmpl =>
        TNode.insertN acc
          (prefixBytes tmpl ++
            (substAux refs (z.origin_path) tmpl 0).drop (prefixBytes tmpl).length) ())
      t)

/-- `transform_multi_multi_impl`: acquire a writer permit per template prefix
(hook first, cursor second), then the query's reader permits, then run the
matching engine whose action writes every substituted template into the trie.
The returned pair is the call result and the final trie. -/
def transform_multi_multi_impl {E : Type} (writer_hook reader_hook : List Nat → Except E Unit)
    (space : TNode Unit) (ps0 : PermitState)
    (patterns templates : List (List Nat)) (fuel : Nat) :
    Option (Except (TransformErr E) Unit × TNode Unit) :=
  match acquireWriters writer_hook (templates.map prefixBytes) ps0 with
  | .error er => some (.error er, space)
  | .ok ps1 =>
    match acquireReaders reader_hook (prefixBytes (patterns.headD [])) patterns.length ps1 with
    | .error er => some (.error er, space)
    | .ok _ =>
      match rt (actTransform templates) fuel (mkStackVec patterns).reverse
          ⟨prefixBytes (patterns.headD []), queryProductRoot space patterns, []⟩ [] space with
      | none => none
      | some (.error e) => Empty.elim e
      | some (.ok s) => some (.ok (), s.acc)

namespace TNode

variable {V : Type}

@[simp] theorem val_mk (v : Option V) (cs : List (Nat × TNode V)) : (TNode.mk v cs).val = v := rfl

@[simp] theorem children_mk (v : Option V) (cs : List (Nat × TNode V)) :
    (TNode.mk v cs).children = cs := rfl

@[simp] theorem findChild_nil (b : Nat) : findChild ([] : List (Nat × TNode V)) b = none := rfl

theorem findChild_cons (b' : Nat) (c : TNode V) (cs : List (Nat × TNode V)) (b : Nat) :
    findChild ((b', c) :: cs) b = if b = b' then some c else findChild cs b := rfl

theorem ltAll_nil (b : Nat) : ltAll b ([] : List (Nat × TNode V)) := by
  intro p hp; cases hp

theorem ltAll_cons {b b' : Nat} {c : TNode V} {cs : List (Nat × TNode V)} :
    ltAll b ((b', c) :: cs) ↔ b < b' ∧ ltAll b cs := by
  constructor
  · intro h
    exact ⟨h (b', c) (List.mem_cons_self _ _), fun p hp => h p (List.mem_cons_of_mem _ hp)⟩
  · rintro ⟨h1, h2⟩ p hp
    rcases List.mem_cons.mp hp with h | h
    · cases h; exact h1
    · exact h2 p h

theorem sortedKeys_cons {b : Nat} {c : TNode V} {cs : List (Nat × TNode V)} :
    sortedKeys ((b, c) :: cs) = true ↔ ltAll b cs ∧ sortedKeys cs = true := by
  induction cs generalizing b c with
  | nil => simp [sortedKeys, ltAll_nil]
  | cons hd tl ih =>
    obtain ⟨b', c'⟩ := hd
    simp only [sortedKeys, Bool.and_eq_true, decide_eq_true_eq]
    rw [ltAll_cons]
    constructor
    · rintro ⟨hlt, htl⟩
      have := (ih (b := b')).mp htl
      exact ⟨⟨hlt, fun p hp => lt_trans hlt (this.1 p hp)⟩, htl⟩
    · rintro ⟨⟨hlt, _⟩, htl⟩
      exact ⟨hlt, htl⟩

theorem findChild_of_ltAll {b : Nat} {cs : List (Nat × TNode V)} (h : ltAll b cs) :
    findChild cs b = none := by
  induction cs with
  | nil => rfl
  | cons hd tl ih =>
    obtain ⟨b', c'⟩ := hd
    rw [ltAll_cons] at h
    simp only [findChild]
    rw [if_neg (by omega), ih h.2]

theorem findChild_mem {b : Nat} {c : TNode V} {cs : List (Nat × TNode V)}
    (h : findChild cs b = some c) : (b, c) ∈ cs := by
  induction cs with
  | nil => simp [findChild] at h
  | cons hd tl ih =>
    obtain ⟨b', c'⟩ := hd
    simp only [findChild] at h
    by_cases hb : b = b'
    · rw [if_pos hb] at h
      cases h; cases hb; exact List.mem_cons_self _ _
    · rw [if_neg hb] at h
      exact List.mem_cons_of_mem _ (ih h)

theorem mem_findChild {b : Nat} {c : TNode V} {cs : List (Nat × TNode V)}
    (hs : sortedKeys cs = true) (h : (b, c) ∈ cs) : findChild cs b = some c := by
  induction cs with
  | nil => cases h
  | cons hd tl ih =>
    obtain ⟨b', c'⟩ := hd
    rw [sortedKeys_cons] at hs
    rcases List.mem_cons.mp h with h | h
    · cases h
      simp [findChild]
    · have hbb : b' < b := hs.1 _ h
      simp only [findChild]
      rw [if_neg (by omega)]
      exact ih hs.2 h

/-- `getN` on the empty node is `none`. -/
theorem getN_nu (k : List Nat) : getN (nu : TNode V) k = none := by
  cases k <;> rfl

/-- `getN` on a valueless childless node is `none`. -/
theorem getN_leafless {n : TNode V} (hv : n.val = none) (hc : n.children = []) (k : List Nat) :
    getN n k = none := by
  cases k with
  | nil => exact hv
  | cons b rest => simp [getN, hc]

theorem findChild_childSet (cs : List (Nat × TNode V)) (b : Nat) (c : TNode V) (q : Nat) :
    findChild (childSet cs b c) q = if q = b then some c else findChild cs q := by
  induction cs with
  | nil => simp [childSet, findChild]
  | cons hd tl ih =>
    obtain ⟨b', c'⟩ := hd
    simp only [childSet]
    by_cases h1 : b < b'
    · rw [if_pos h1]
      simp only [findChild]
    · rw [if_neg h1]
      by_cases h2 : b = b'
      · subst h2
        rw [if_pos rfl]
        simp only [findChild]
        by_cases hq : q = b
        · simp [hq]
        · simp [hq]
      · rw [if_neg h2]
        simp only [findChild, ih]
        by_cases hq : q = b'
        · subst hq
          rw [if_pos rfl, if_neg (by omega), if_pos rfl]
        · rw [if_neg hq, if_neg hq]

theorem ltAll_childSet {a b : Nat} {c : TNode V} {cs : List (Nat × TNode V)}
    (h : ltAll a cs) (hab : a < b) : ltAll a (childSet cs b c) := by
  induction cs with
  | nil => intro p hp; rcases List.mem_cons.mp hp with h | h; · cases h; exact hab
           · cases h
  | cons hd tl ih =>
    obtain ⟨b', c'⟩ := hd
    rw [ltAll_cons] at h
    simp only [childSet]
    by_cases h1 : b < b'
    · rw [if_pos h1, ltAll_cons, ltAll_cons]
      exact ⟨hab, h.1, h.2⟩
    · rw [if_neg h1]
      by_cases h2 : b = b'
      · rw [if_pos h2, ltAll_cons]
        exact ⟨h.1, h.2⟩
      · rw [if_neg h2, ltAll_cons]
        exact ⟨h.1, ih h.2⟩

theorem sortedKeys_childSet {cs : List (Nat × TNode V)} (hs : sortedKeys cs = true)
    (b : Nat) (c : TNode V) : sortedKeys (childSet cs b c) = true := by
  induction cs with
  | nil => simp [childSet, sortedKeys]
  | cons hd tl ih =>
    obtain ⟨b', c'⟩ := hd
    rw [sortedKeys_cons] at hs
    simp only [childSet]
    by_cases h1 : b < b'
    · rw [if_pos h1, sortedKeys_cons, sortedKeys_cons, ltAll_cons]
      exact ⟨⟨h1, fun p hp => lt_trans h1 (hs.1 p hp)⟩, hs.1, hs.2⟩
    · rw [if_neg h1]
      by_cases h2 : b = b'
      · rw [if_pos h2, sortedKeys_cons]
        exact hs
      · rw [if_neg h2, sortedKeys_cons]
        exact ⟨ltAll_childSet hs.1 (by omega), ih hs.2⟩

theorem findChild_childUpdate {cs : List (Nat × TNode V)} (hs : sortedKeys cs = true)
    (b : Nat) (f : TNode V → TNode V) (q : Nat) :
    findChild (childUpdate cs b f) q =
      if q = b then some (f ((findChild cs b).getD nu)) else findChild cs q := by
  induction cs with
  | nil => simp [childUpdate, findChild]
  | cons hd tl ih =>
    obtain ⟨b', c'⟩ := hd
    rw [sortedKeys_cons] at hs
    simp only [childUpdate]
    by_cases h1 : b < b'
    · rw [if_pos h1]
      have hnone : findChild tl b = none :=
        findChild_of_ltAll (fun p hp => lt_trans h1 (hs.1 p hp))
      simp only [findChild_cons, if_neg (show ¬b = b' by omega), hnone]
      split_ifs <;> first | rfl | omega
    · rw [if_neg h1]
      by_cases h2 : b = b'
      · subst h2
        rw [if_pos rfl]
        simp only [findChild_cons]
        split_ifs <;> first | rfl | omega
      · rw [if_neg h2]
        simp only [findChild_cons, ih hs.2, if_neg h2]
        split_ifs <;> first | rfl | omega

theorem ltAll_childUpdate {a b : Nat} {f : TNode V → TNode V} {cs : List (Nat × TNode V)}
    (h : ltAll a cs) (hab : a < b) : ltAll a (childUpdate cs b f) := by
  induction cs with
  | nil =>
    intro p hp
    rcases List.mem_cons.mp hp with h | h
    · cases h; exact hab
    · cases h
  | cons hd tl ih =>
    obtain ⟨b', c'⟩ := hd
    rw [ltAll_cons] at h
    simp only [childUpdate]
    by_cases h1 : b < b'
    · rw [if_pos h1, ltAll_cons, ltAll_cons]
      exact ⟨hab, h.1, h.2⟩
    · rw [if_neg h1]
      by_cases h2 : b = b'
      · rw [if_pos h2, ltAll_cons]
        exact ⟨h.1, h.2⟩
      · rw [if_neg h2, ltAll_cons]
        exact ⟨h.1, ih h.2⟩

theorem sortedKeys_childUpdate {cs : List (Nat × TNode V)} (hs : sortedKeys cs = true)
    (b : Nat) (f : TNode V → TNode V) : sortedKeys (childUpdate cs b f) = true := by
  induction cs with
  | nil => simp [childUpdate, sortedKeys]
  | cons hd tl ih =>
    obtain ⟨b', c'⟩ := hd
    rw [sortedKeys_cons] at hs
    simp only [childUpdate]
    by_cases h1 : b < b'
    · rw [if_pos h1, sortedKeys_cons, sortedKeys_cons, ltAll_cons]
      exact ⟨⟨h1, fun p hp => lt_trans h1 (hs.1 p hp)⟩, hs.1, hs.2⟩
    · rw [if_neg h1]
      by_cases h2 : b = b'
      · rw [if_pos h2, sortedKeys_cons]
        exact hs
      · rw [if_neg h2, sortedKeys_cons]
        exact ⟨ltAll_childUpdate hs.1 (by omega), ih hs.2⟩

theorem wfN_mk (v : Option V) (cs : List (Nat × TNode V)) :
    wfN (.mk v cs) = (sortedKeys cs && wfC cs) := by
  rw [wfN]

theorem wfN_nu : wfN (nu : TNode V) = true := rfl

theorem wfC_of_mem {cs : List (Nat × TNode V)} {b : Nat} {c : TNode V}
    (h : wfC cs = true) (hm : (b, c) ∈ cs) : wfN c = true := by
  induction cs with
  | nil => cases hm
  | cons hd tl ih =>
    obtain ⟨b', c'⟩ := hd
    rw [wfC, Bool.and_eq_true] at h
    rcases List.mem_cons.mp hm with hm | hm
    · cases hm; exact h.1
    · exact ih h.2 hm

theorem wfN_sorted {n : TNode V} (h : wfN n = true) : sortedKeys n.children = true := by
  cases n with
  | mk v cs => rw [wfN, Bool.and_eq_true] at h; exact h.1

theorem wfN_wfC {n : TNode V} (h : wfN n = true) : wfC n.children = true := by
  cases n with
  | mk v cs => rw [wfN, Bool.and_eq_true] at h; exact h.2

theorem wfN_child {n : TNode V} {b : Nat} {c : TNode V} (h : wfN n = true)
    (hf : findChild n.children b = some c) : wfN c = true :=
  wfC_of_mem (wfN_wfC h) (findChild_mem hf)

/-- Full `get`/`insert` characterisation: inserting `(k, v)` makes `k` map to `v`
and leaves every other key unchanged. -/
theorem getN_insertN {n : TNode V} (hn : wfN n = true) (k : List Nat) (v : V) (q : List Nat) :
    getN (insertN n k v) q = if q = k then some v else getN n q := by
  induction k generalizing n q with
  | nil =>
    rw [insertN]
    cases q with
    | nil => simp [getN]
    | cons b rest => simp [getN]
  | cons b rest ih =>
    rw [insertN]
    cases q with
    | nil => simp [getN]
    | cons b' rest' =>
      simp only [getN, children_mk]
      rw [findChild_childUpdate (wfN_sorted hn)]
      by_cases hb : b' = b
      · subst hb
        rw [if_pos rfl]
        cases hf : findChild n.children b' with
        | none =>
          simp [ih (n := nu) wfN_nu, getN_nu]
        | some c =>
          simp [ih (wfN_child hn hf)]
      · rw [if_neg hb, if_neg (show ¬(b' :: rest' = b :: rest) by simp [hb])]

@[simp] theorem oOr_some (v : V) (b : Option V) : oOr (some v) b = some v := rfl

@[simp] theorem oOr_none (b : Option V) : oOr none b = b := rfl

@[simp] theorem oOr_none_right (a : Option V) : oOr a none = a := by cases a <;> rfl

theorem unionN_def (n o : TNode V) :
    unionN n o = .mk (if n.val.isNone && (o.val).isSome then o.val else n.val)
      (unionC n.children o.children) := by
  cases o with
  | mk ov os =>
    rw [unionN]
    simp

theorem interN_def (n o : TNode V) :
    interN n o = .mk (if n.val.isSome && o.val.isSome then n.val else none)
      (interC n.children o.children) := by
  cases n with
  | mk v cs =>
    rw [interN]
    simp

theorem diffN_def (n o : TNode V) :
    diffN n o = .mk (if o.val.isSome then none else n.val)
      ((diffC n.children o).filter fun bc => bc.2.val.isSome || !bc.2.children.isEmpty) := by
  cases n with
  | mk v cs =>
    rw [diffN]
    simp

theorem findChild_unionC {cs os : List (Nat × TNode V)} (hc : sortedKeys cs = true)
    (ho : sortedKeys os = true) (q : Nat) :
    findChild (unionC cs os) q =
      match findChild cs q, findChild os q with
      | none, none => none
      | some c, none => some c
      | none, some oc => some (unionN nu oc)
      | some c, some oc => some (unionN c oc) := by
  induction os generalizing cs with
  | nil =>
    rw [unionC]
    cases findChild cs q <;> simp [findChild]
  | cons hd os' ih =>
    obtain ⟨b, oc⟩ := hd
    rw [sortedKeys_cons] at ho
    rw [unionC]
    rw [ih (sortedKeys_childSet hc _ _) ho.2]
    rw [findChild_childSet]
    by_cases hq : q = b
    · subst hq
      rw [if_pos rfl]
      have hnone : findChild os' q = none := findChild_of_ltAll ho.1
      rw [hnone]
      simp only [findChild, if_pos rfl]
      cases findChild cs q <;> rfl
    · rw [if_neg hq]
      simp only [findChild, if_neg hq]

/-- `get` through `union`: the left map's binding wins; the right map's binding
is used only where the left map has none. -/
theorem getN_unionN {n o : TNode V} (hn : wfN n = true) (ho : wfN o = true) (k : List Nat) :
    getN (unionN n o) k = oOr (getN n k) (getN o k) := by
  induction k generalizing n o with
  | nil =>
    rw [unionN_def]
    simp only [getN, val_mk]
    cases hv : n.val with
    | some v => simp [hv]
    | none =>
      cases hov : o.val with
      | some w => simp
      | none => simp
  | cons b rest ih =>
    rw [unionN_def]
    simp only [getN, children_mk]
    rw [findChild_unionC (wfN_sorted hn) (wfN_sorted ho)]
    cases hf : findChild n.children b with
    | none =>
      cases hg : findChild o.children b with
      | none => rfl
      | some oc =>
        have h2 := ih (n := nu) wfN_nu (wfN_child ho hg)
        simp only [getN_nu, oOr_none] at h2
        simpa using h2
    | some c =>
      cases hg : findChild o.children b with
      | none => simp
      | some oc =>
        exact ih (wfN_child hn hf) (wfN_child ho hg)

theorem ltAll_interC {b : Nat} {cs os : List (Nat × TNode V)} (h : ltAll b cs) :
    ltAll b (interC cs os) := by
  induction cs with
  | nil => intro p hp; rw [interC] at hp; cases hp
  | cons hd cs' ih =>
    obtain ⟨b', c⟩ := hd
    rw [ltAll_cons] at h
    rw [interC]
    cases findChild os b' with
    | some oc =>
      intro p hp
      rcases List.mem_cons.mp hp with hp | hp
      · cases hp; exact h.1
      · exact ih h.2 p hp
    | none => exact ih h.2

theorem findChild_interC {cs os : List (Nat × TNode V)} (hc : sortedKeys cs = true) (q : Nat) :
    findChild (interC cs os) q =
      match findChild cs q, findChild os q with
      | some c, some oc => some (interN c oc)
      | _, _ => none := by
  induction cs with
  | nil =>
    rw [interC]
    simp [findChild]
  | cons hd cs' ih =>
    obtain ⟨b, c⟩ := hd
    rw [sortedKeys_cons] at hc
    rw [interC]
    cases hg : findChild os b with
    | some oc =>
      simp only [findChild_cons]
      by_cases hq : q = b
      · rw [if_pos hq, if_pos hq, hq, hg]
      · rw [if_neg hq, if_neg hq, ih hc.2]
    | none =>
      rw [ih hc.2]
      simp only [findChild_cons]
      by_cases hq : q = b
      · rw [if_pos hq, hq, hg, findChild_of_ltAll hc.1]
      · rw [if_neg hq]

/-- `get` through `intersection`: a binding survives exactly when both maps
bind the key; the surviving value is the left one. -/
theorem getN_interN {n o : TNode V} (hn : wfN n = true) (ho : wfN o = true) (k : List Nat) :
    getN (interN n o) k =
      match getN n k, getN o k with
      | some v, some _ => some v
      | _, _ => none := by
  induction k generalizing n o with
  | nil =>
    rw [interN_def]
    simp only [getN, val_mk]
    cases hv : n.val <;> cases hov : o.val <;> simp
  | cons b rest ih =>
    rw [interN_def]
    simp only [getN, children_mk]
    rw [findChild_interC (wfN_sorted hn)]
    cases hf : findChild n.children b with
    | none =>
      cases hg : findChild o.children b with
      | none => rfl
      | some oc => rfl
    | some c =>
      cases hg : findChild o.children b with
      | none =>
        cases hr : getN c rest <;> simp [hr]
      | some oc =>
        exact ih (wfN_child hn hf) (wfN_child ho hg)

theorem ltAll_filter {b : Nat} {l : List (Nat × TNode V)} (h : ltAll b l)
    (P : Nat × TNode V → Bool) : ltAll b (l.filter P) := by
  intro p hp
  exact h p (List.mem_of_mem_filter hp)

theorem findChild_filter {l : List (Nat × TNode V)} (hs : sortedKeys l = true)
    (P : Nat × TNode V → Bool) (q : Nat) :
    findChild (l.filter P) q =
      match findChild l q with
      | some c => if P (q, c) then some c else none
      | none => none := by
  induction l with
  | nil => simp [findChild]
  | cons hd tl ih =>
    obtain ⟨b, c⟩ := hd
    rw [sortedKeys_cons] at hs
    rw [List.filter_cons]
    by_cases hp : P (b, c)
    · rw [if_pos hp]
      simp only [findChild_cons]
      by_cases hq : q = b
      · rw [if_pos hq, if_pos hq, hq]
        simp [hp]
      · rw [if_neg hq, if_neg hq, ih hs.2]
    · rw [if_neg hp]
      rw [ih hs.2]
      simp only [findChild_cons]
      by_cases hq : q = b
      · rw [hq, findChild_of_ltAll hs.1, if_pos rfl]
        simp [hp]
      · rw [if_neg hq]

theorem ltAll_diffC {b : Nat} {cs : List (Nat × TNode V)} (h : ltAll b cs) (o : TNode V) :
    ltAll b (diffC cs o) := by
  induction cs with
  | nil => rw [diffC]; exact ltAll_nil b
  | cons hd cs2 ih =>
    obtain ⟨b2, c⟩ := hd
    rw [ltAll_cons] at h
    rw [diffC]
    rw [ltAll_cons]
    exact ⟨h.1, ih h.2⟩

theorem sortedKeys_diffC {cs : List (Nat × TNode V)} (hs : sortedKeys cs = true) (o : TNode V) :
    sortedKeys (diffC cs o) = true := by
  induction cs with
  | nil => rw [diffC]; rfl
  | cons hd cs2 ih =>
    obtain ⟨b, c⟩ := hd
    rw [sortedKeys_cons] at hs
    rw [diffC, sortedKeys_cons]
    exact ⟨ltAll_diffC hs.1 o, ih hs.2⟩

theorem findChild_diffC (cs : List (Nat × TNode V)) (o : TNode V) (q : Nat) :
    findChild (diffC cs o) q =
      (findChild cs q).map fun c =>
        match findChild o.children q with
        | some oc => diffN c oc
        | none => c := by
  induction cs with
  | nil => rw [diffC]; rfl
  | cons hd cs2 ih =>
    obtain ⟨b, c⟩ := hd
    rw [diffC]
    simp only [findChild_cons]
    by_cases hq : q = b
    · rw [if_pos hq, if_pos hq, hq]
      rfl
    · rw [if_neg hq, if_neg hq, ih]

/-- `get` through `difference`: a binding survives exactly when the other map
has no binding at the key. -/
theorem getN_diffN {n o : TNode V} (hn : wfN n = true) (ho : wfN o = true) (k : List Nat) :
    getN (diffN n o) k = if (getN o k).isSome then none else getN n k := by
  induction k generalizing n o with
  | nil =>
    rw [diffN_def]
    simp only [getN, val_mk]
  | cons b rest ih =>
    rw [diffN_def]
    simp only [getN, children_mk]
    rw [findChild_filter (sortedKeys_diffC (wfN_sorted hn) o)]
    rw [findChild_diffC]
    cases hf : findChild n.children b with
    | none =>
      cases hg : findChild o.children b with
      | none => simp
      | some oc => simp
    | some c =>
      cases hg : findChild o.children b with
      | none =>
        by_cases hp : c.val.isSome || !c.children.isEmpty
        · simp [hp]
        · have hp2 := hp
          simp only [Bool.or_eq_true, Bool.not_eq_true', not_or] at hp2
          have hcv : c.val = none := by
            cases hcv : c.val
            · rfl
            · exfalso; rw [hcv] at hp2; simp at hp2
          have hcc : c.children = [] := by
            cases hcl : c.children
            · rfl
            · exfalso; rw [hcl] at hp2; simp at hp2
          simp [hp, getN_leafless hcv hcc rest]
      | some oc =>
        by_cases hp : (diffN c oc).val.isSome || !(diffN c oc).children.isEmpty
        · simp [hp, ih (wfN_child hn hf) (wfN_child ho hg)]
        · have hp2 := hp
          simp only [Bool.or_eq_true, Bool.not_eq_true', not_or] at hp2
          have hcv : (diffN c oc).val = none := by
            cases hcv : (diffN c oc).val
            · rfl
            · exfalso; rw [hcv] at hp2; simp at hp2
          have hcc : (diffN c oc).children = [] := by
            cases hcl : (diffN c oc).children
            · rfl
            · exfalso; rw [hcl] at hp2; simp at hp2
          have hz : getN (diffN c oc) rest = none := getN_leafless hcv hcc rest
          rw [ih (wfN_child hn hf) (wfN_child ho hg)] at hz
          simp [hp, hz]

mutual
theorem length_toListN (p : List Nat) : ∀ n : TNode V, (toListN p n).length = countN n
  | .mk (some x) cs => by
    rw [toListN, countN]
    simp [length_toListC p cs] <;> omega
  | .mk none cs => by
    rw [toListN, countN]
    simp [length_toListC p cs] <;> omega
termination_by n => sizeOf n
theorem length_toListC (p : List Nat) :
    ∀ cs : List (Nat × TNode V), (toListC p cs).length = countC cs
  | [] => by rw [toListC, countC]; rfl
  | (b, c) :: cs => by
    rw [toListC, countC]
    simp [length_toListN (p ++ [b]) c, length_toListC p cs]
termination_by cs => sizeOf cs
end

mutual
theorem mem_toListN : ∀ n : TNode V, wfN n = true → ∀ (p q : List Nat) (v : V),
    ((q, v) ∈ toListN p n ↔ ∃ r, q = p ++ r ∧ getN n r = some v)
  | .mk w cs => by
    intro hn p q v
    rw [wfN, Bool.and_eq_true] at hn
    have hcore := mem_toListC cs hn.1 hn.2 p q v
    have hsplit : (q, v) ∈ toListN p (.mk w cs) ↔
        ((w = some v ∧ q = p) ∨ (q, v) ∈ toListC p cs) := by
      cases w with
      | some x =>
        rw [toListN]
        simp only [List.mem_cons, Prod.mk.injEq]
        constructor
        · rintro (⟨h1, h2⟩ | hm)
          · exact Or.inl ⟨by rw [h2], h1⟩
          · exact Or.inr hm
        · rintro (⟨h1, h2⟩ | hm)
          · cases h1; exact Or.inl ⟨h2, rfl⟩
          · exact Or.inr hm
      | none =>
        rw [toListN]
        simp
    rw [hsplit, hcore]
    constructor
    · rintro (⟨h1, h2⟩ | ⟨b, rest, c, hfc, hq, hg⟩)
      · exact ⟨[], by simp [h2], by simp [getN, h1]⟩
      · exact ⟨b :: rest, hq, by simp [getN, hfc, hg]⟩
    · rintro ⟨r, hq, hg⟩
      cases r with
      | nil =>
        left
        simp only [getN, val_mk] at hg
        simp [hq, hg]
      | cons b rest =>
        right
        simp only [getN, children_mk] at hg
        cases hfc : findChild cs b with
        | none => rw [hfc] at hg; cases hg
        | some c =>
          rw [hfc] at hg
          exact ⟨b, rest, c, hfc, hq, hg⟩
termination_by n => sizeOf n
theorem mem_toListC : ∀ cs : List (Nat × TNode V), sortedKeys cs = true → wfC cs = true →
    ∀ (p q : List Nat) (v : V),
    ((q, v) ∈ toListC p cs ↔
      ∃ b rest c, findChild cs b = some c ∧ q = p ++ b :: rest ∧ getN c rest = some v)
  | [] => by
    intro _ _ p q v
    rw [toListC]
    simp [findChild]
  | (b0, c0) :: cs2 => by
    intro hs hw p q v
    rw [sortedKeys_cons] at hs
    rw [wfC, Bool.and_eq_true] at hw
    rw [toListC, List.mem_append]
    rw [mem_toListN c0 hw.1 (p ++ [b0]) q v]
    rw [mem_toListC cs2 hs.2 hw.2 p q v]
    constructor
    · rintro (⟨r, hq, hg⟩ | ⟨b, rest, c, hfc, hq, hg⟩)
      · exact ⟨b0, r, c0, by simp [findChild_cons], by simpa using hq, hg⟩
      · have hne : b ≠ b0 := by
          have := hs.1 _ (findChild_mem hfc)
          omega
        exact ⟨b, rest, c, by rw [findChild_cons, if_neg hne]; exact hfc, hq, hg⟩
    · rintro ⟨b, rest, c, hfc, hq, hg⟩
      rw [findChild_cons] at hfc
      by_cases hb : b = b0
      · rw [if_pos hb] at hfc
        cases hfc
        left
        exact ⟨rest, by simp [hq, hb], hg⟩
      · rw [if_neg hb] at hfc
        right
        exact ⟨b, rest, c, hfc, hq, hg⟩
termination_by cs => sizeOf cs
end

theorem lexLtB_irrefl : ∀ q : List Nat, lexLtB q q = false
  | [] => rfl
  | a :: as => by simp [lexLtB, lexLtB_irrefl as]

theorem lexLtB_append_right : ∀ (p r : List Nat), r ≠ [] → lexLtB p (p ++ r) = true
  | [], r, hr => by
    cases r with
    | nil => cases hr rfl
    | cons x xs => rfl
  | a :: as, r, hr => by
    simp only [List.cons_append, lexLtB, List.append_eq]
    rw [lexLtB_append_right as r hr]
    simp

theorem lexLtB_append_ltHead : ∀ (p : List Nat) {a b : Nat} (as bs : List Nat), a < b →
    lexLtB (p ++ a :: as) (p ++ b :: bs) = true
  | [], a, b, as, bs, hab => by
    simp [lexLtB, hab]
  | x :: p, a, b, as, bs, hab => by
    simp only [List.cons_append, lexLtB, List.append_eq]
    rw [lexLtB_append_ltHead p as bs hab]
    simp

mutual
theorem pfx_toListN : ∀ (n : TNode V) (p q : List Nat) (v : V),
    (q, v) ∈ toListN p n → ∃ r, q = p ++ r
  | .mk (some x) cs => by
    intro p q v hm
    rw [toListN, List.mem_cons] at hm
    rcases hm with hm | hm
    · exact ⟨[], by simp [Prod.ext_iff] at hm; simp [hm.1]⟩
    · rcases pfx_toListC cs p q v hm with ⟨b, r, hq⟩
      exact ⟨b :: r, hq⟩
  | .mk none cs => by
    intro p q v hm
    rw [toListN] at hm
    rcases pfx_toListC cs p q v hm with ⟨b, r, hq⟩
    exact ⟨b :: r, hq⟩
termination_by n => sizeOf n
theorem pfx_toListC : ∀ (cs : List (Nat × TNode V)) (p q : List Nat) (v : V),
    (q, v) ∈ toListC p cs → ∃ b r, q = p ++ b :: r
  | [] => by intro p q v hm; rw [toListC] at hm; cases hm
  | (b0, c0) :: cs2 => by
    intro p q v hm
    rw [toListC, List.mem_append] at hm
    rcases hm with hm | hm
    · rcases pfx_toListN c0 (p ++ [b0]) q v hm with ⟨r, hq⟩
      exact ⟨b0, r, by simpa using hq⟩
    · exact pfx_toListC cs2 p q v hm
termination_by cs => sizeOf cs
end

/-- Keys of the child listing under prefix `p` start with `p ++ [b]` for a key `b`
present in the child list, bounded below when the list is bounded. -/
theorem pfx_toListC_bound {lo : Nat} : ∀ (cs : List (Nat × TNode V)), ltAll lo cs →
    ∀ (p q : List Nat) (v : V), (q, v) ∈ toListC p cs → ∃ b r, lo < b ∧ q = p ++ b :: r
  | [] => by intro _ p q v hm; rw [toListC] at hm; cases hm
  | (b0, c0) :: cs2 => by
    intro hlt p q v hm
    rw [ltAll_cons] at hlt
    rw [toListC, List.mem_append] at hm
    rcases hm with hm | hm
    · rcases pfx_toListN c0 (p ++ [b0]) q v hm with ⟨r, hq⟩
      exact ⟨b0, r, hlt.1, by simpa using hq⟩
    · exact pfx_toListC_bound cs2 hlt.2 p q v hm

mutual
theorem pairwise_toListN : ∀ n : TNode V, wfN n = true → ∀ p : List Nat,
    (toListN p n).Pairwise (fun x y => lexLtB x.1 y.1 = true)
  | .mk (some a) cs => by
    intro hn p
    rw [wfN, Bool.and_eq_true] at hn
    rw [toListN]
    rw [List.pairwise_cons]
    refine ⟨?_, pairwise_toListC cs hn.1 hn.2 p⟩
    intro y hy
    rcases pfx_toListC cs p y.1 y.2 (by simpa using hy) with ⟨b, r, hq⟩
    rw [hq]
    exact lexLtB_append_right p (b :: r) (by simp)
  | .mk none cs => by
    intro hn p
    rw [wfN, Bool.and_eq_true] at hn
    rw [toListN]
    exact pairwise_toListC cs hn.1 hn.2 p
termination_by n => sizeOf n
theorem pairwise_toListC : ∀ cs : List (Nat × TNode V), sortedKeys cs = true → wfC cs = true →
    ∀ p : List Nat, (toListC p cs).Pairwise (fun x y => lexLtB x.1 y.1 = true)
  | [] => by intro _ _ p; rw [toListC]; exact List.Pairwise.nil
  | (b0, c0) :: cs2 => by
    intro hs hw p
    rw [sortedKeys_cons] at hs
    rw [wfC, Bool.and_eq_true] at hw
    rw [toListC]
    rw [List.pairwise_append]
    refine ⟨pairwise_toListN c0 hw.1 (p ++ [b0]), pairwise_toListC cs2 hs.2 hw.2 p, ?_⟩
    intro x hx y hy
    rcases pfx_toListN c0 (p ++ [b0]) x.1 x.2 (by simpa using hx) with ⟨r, hx1⟩
    rcases pfx_toListC_bound cs2 hs.1 p y.1 y.2 (by simpa using hy) with ⟨b, r2, hbb, hy1⟩
    have hrw : p ++ [b0] ++ r = p ++ b0 :: r := by simp
    rw [hx1, hy1, hrw]
    exact lexLtB_append_ltHead p r r2 hbb
termination_by cs => sizeOf cs
end

theorem stackWeight_push (p : List Nat) (cs : List (Nat × TNode V))
    (rest : List (List Nat × TNode V)) :
    stackWeight ((cs.map fun bc => (p ++ [bc.1], bc.2)) ++ rest) =
      nsizeC cs + stackWeight rest := by
  induction cs with
  | nil => simp [stackWeight, nsizeC]
  | cons hd tl ih =>
    obtain ⟨b, c⟩ := hd
    simp only [List.map_cons, List.cons_append, stackWeight, List.map, List.sum_cons,
      List.append_eq] at ih ⊢
    rw [nsizeC]
    omega

theorem stackList_append (a b : List (List Nat × TNode V)) :
    stackList (a ++ b) = stackList a ++ stackList b := by
  induction a with
  | nil => rfl
  | cons hd tl ih =>
    rw [List.cons_append, stackList, stackList, ih, List.append_assoc]

theorem stackList_mapped (p : List Nat) (cs : List (Nat × TNode V)) :
    stackList (cs.map fun bc => (p ++ [bc.1], bc.2)) = toListC p cs := by
  induction cs with
  | nil => rw [List.map_nil, toListC]; rfl
  | cons hd tl ih =>
    obtain ⟨b, c⟩ := hd
    rw [List.map_cons, stackList, ih, toListC]

/-- The iterator machine yields exactly the recursive listing. -/
theorem iterAll_eq : ∀ st : List (List Nat × TNode V), iterAll st = stackList st := by
  intro st
  induction st using iterAll.induct with
  | case1 =>
    rw [iterAll]
    rfl
  | case2 p v cs rest ih =>
    rw [iterAll, ih, stackList_append, stackList_mapped, stackList, toListN]
    simp
  | case3 p cs rest ih =>
    rw [iterAll, ih, stackList_append, stackList_mapped, stackList, toListN]

theorem childUpdate_childUpdate (cs : List (Nat × TNode V)) (b : Nat)
    (f g : TNode V → TNode V) :
    childUpdate (childUpdate cs b f) b g = childUpdate cs b (fun c => g (f c)) := by
  induction cs with
  | nil => simp [childUpdate]
  | cons hd tl ih =>
    obtain ⟨b', c⟩ := hd
    by_cases h1 : b < b'
    · simp [childUpdate, h1]
    · by_cases h2 : b = b'
      · simp [childUpdate, h1, h2]
      · simp [childUpdate, h1, h2, ih]

theorem childUpdate_congr (cs : List (Nat × TNode V)) (b : Nat)
    {f g : TNode V → TNode V} (h : ∀ c, f c = g c) :
    childUpdate cs b f = childUpdate cs b g := by
  induction cs with
  | nil => simp only [childUpdate, h]
  | cons hd tl ih =>
    obtain ⟨b', c⟩ := hd
    simp only [childUpdate, h]
    rw [ih]

/-- Inserting the same binding twice is the same as inserting it once. -/
theorem insertN_insertN (n : TNode V) (k : List Nat) (v : V) :
    insertN (insertN n k v) k v = insertN n k v := by
  induction k generalizing n with
  | nil =>
    rw [insertN, insertN]
    simp
  | cons b rest ih =>
    rw [insertN, insertN]
    simp only [children_mk, val_mk]
    rw [childUpdate_childUpdate]
    rw [childUpdate_congr n.children b (fun c => ih c)]

theorem lexLtB_ne {a b : List Nat} (h : lexLtB a b = true) : a ≠ b := by
  intro hab
  rw [hab] at h
  rw [lexLtB_irrefl] at h
  cases h

end TNode

/-- **C1**: for all `BytesTrieMap` values `S1` and `S2`, the key set of
`S1.union(S2)` is the union of the key sets, the key set of
`S1.intersection(S2)` is their intersection, and the key set of
`S1.difference(S2)` is their set difference. -/
theorem claim_C1_keyset_algebra (m o : BytesTrieMap V) (hm : m.wf = true) (ho : o.wf = true)
    (k : List Nat) :
    ((m.union o).contains_key k = (m.contains_key k || o.contains_key k)) ∧
    ((m.intersection o).contains_key k = (m.contains_key k && o.contains_key k)) ∧
    ((m.difference o).contains_key k = (m.contains_key k && !o.contains_key k)) := by
  refine ⟨?_, ?_, ?_⟩
  · show (TNode.getN (TNode.unionN m.root o.root) k).isSome =
      ((TNode.getN m.root k).isSome || (TNode.getN o.root k).isSome)
    rw [TNode.getN_unionN hm ho]
    cases TNode.getN m.root k <;> cases TNode.getN o.root k <;> rfl
  · show (TNode.getN (TNode.interN m.root o.root) k).isSome =
      ((TNode.getN m.root k).isSome && (TNode.getN o.root k).isSome)
    rw [TNode.getN_interN hm ho]
    cases TNode.getN m.root k <;> cases TNode.getN o.root k <;> rfl
  · show (TNode.getN (TNode.diffN m.root o.root) k).isSome =
      ((TNode.getN m.root k).isSome && !(TNode.getN o.root k).isSome)
    rw [TNode.getN_diffN hm ho]
    cases TNode.getN m.root k <;> cases TNode.getN o.root k <;> rfl

/-- Witness for C1 at a concrete pair of maps and key. -/
theorem claim_C1_keyset_algebra_witness :
    (wmapA.wf = true) ∧ (wmapB.wf = true) ∧
    (((wmapA.union wmapB).contains_key [3] =
        (wmapA.contains_key [3] || wmapB.contains_key [3])) ∧
     ((wmapA.intersection wmapB).contains_key [3] =
        (wmapA.contains_key [3] && wmapB.contains_key [3])) ∧
     ((wmapA.difference wmapB).contains_key [3] =
        (wmapA.contains_key [3] && !wmapB.contains_key [3]))) :=
  ⟨by decide, by decide, claim_C1_keyset_algebra wmapA wmapB (by decide) (by decide) [3]⟩

/-- **C2**: inserting `(k, v)` twice leaves the map exactly as inserting it once,
and `len()` equals the number of distinct keys carrying a value: it is the
length of a duplicate-free list of keys that are exactly the keys `get` answers
on. -/
theorem claim_C2_insert_idem_len (m : BytesTrieMap V) (hm : m.wf = true)
    (k : List Nat) (v : V) :
    ((m.insert k v).insert k v = m.insert k v) ∧
    (m.len = m.keyList.length ∧ m.keyList.Nodup ∧
      ∀ q, q ∈ m.keyList ↔ (m.get q).isSome = true) := by
  refine ⟨?_, ?_, ?_, ?_⟩
  · show (⟨TNode.insertN (TNode.insertN m.root k v) k v⟩ : BytesTrieMap V) = _
    rw [TNode.insertN_insertN]
    rfl
  · show TNode.countN m.root = ((TNode.toListN [] m.root).map Prod.fst).length
    rw [List.length_map, TNode.length_toListN]
  · show ((TNode.toListN [] m.root).map Prod.fst).Nodup
    have hp := TNode.pairwise_toListN m.root hm []
    have : ((TNode.toListN [] m.root).map Prod.fst).Pairwise (· ≠ ·) := by
      rw [List.pairwise_map]
      exact hp.imp fun h => TNode.lexLtB_ne h
    exact this
  · intro q
    show q ∈ (TNode.toListN [] m.root).map Prod.fst ↔ _
    rw [List.mem_map]
    constructor
    · rintro ⟨⟨q2, w⟩, hm2, h⟩
      cases h
      rcases (TNode.mem_toListN m.root hm [] q2 w).mp hm2 with ⟨r, hr, hg⟩
      simp only [List.nil_append] at hr
      show (TNode.getN m.root q2).isSome = true
      rw [hr, hg]
      rfl
    · intro hq
      cases hg : m.get q with
      | none => rw [hg] at hq; cases hq
      | some w =>
        refine ⟨(q, w), ?_, rfl⟩
        exact (TNode.mem_toListN m.root hm [] q w).mpr ⟨q, by simp, hg⟩

/-- Witness for C2 at a concrete map, key and value. -/
theorem claim_C2_insert_idem_len_witness :
    (wmapA.wf = true) ∧
    (((wmapA.insert [9] 1).insert [9] 1 = wmapA.insert [9] 1) ∧
     (wmapA.len = wmapA.keyList.length ∧ wmapA.keyList.Nodup ∧
       ∀ q, q ∈ wmapA.keyList ↔ (wmapA.get q).isSome = true)) :=
  ⟨by decide, claim_C2_insert_idem_len wmapA (by decide) [9] 1⟩

/-- **C8**: the iterator yields exactly the key/value pairs stored in the map,
in strictly increasing byte-lexicographic key order. -/
theorem claim_C8_iter_order (m : BytesTrieMap V) (hm : m.wf = true) :
    (∀ k v, ((k, v) ∈ m.iter ↔ m.get k = some v)) ∧
    m.iter.Pairwise (fun x y => TNode.lexLtB x.1 y.1 = true) := by
  have hiter : m.iter = TNode.toListN [] m.root := by
    show TNode.iterAll [([], m.root)] = _
    rw [TNode.iterAll_eq]
    show TNode.toListN [] m.root ++ TNode.stackList [] = _
    rw [TNode.stackList]
    exact List.append_nil _
  constructor
  · intro k v
    rw [hiter]
    rw [TNode.mem_toListN m.root hm [] k v]
    constructor
    · rintro ⟨r, hr, hg⟩
      simp only [List.nil_append] at hr
      subst hr
      exact hg
    · intro hg
      exact ⟨k, by simp, hg⟩
  · rw [hiter]
    exact TNode.pairwise_toListN m.root hm []

/-- Witness for C8 at a concrete map. -/
theorem claim_C8_iter_order_witness :
    (wmapA.wf = true) ∧
    ((∀ k v, ((k, v) ∈ wmapA.iter ↔ wmapA.get k = some v)) ∧
     wmapA.iter.Pairwise (fun x y => TNode.lexLtB x.1 y.1 = true)) :=
  ⟨by decide, claim_C8_iter_order wmapA (by decide)⟩

/-- **C9**: union is left-biased on values: a key present in both maps keeps
the left map's value, and the right map's value is used only where the left
map has none. -/
theorem claim_C9_union_left_biased (m o : BytesTrieMap V) (hm : m.wf = true) (ho : o.wf = true)
    (k : List Nat) :
    (∀ v1 v2 : V, m.get k = some v1 → o.get k = some v2 → (m.union o).get k = some v1) ∧
    (m.get k = none → (m.union o).get k = o.get k) := by
  constructor
  · intro v1 v2 h1 h2
    show TNode.getN (TNode.unionN m.root o.root) k = some v1
    rw [TNode.getN_unionN hm ho]
    rw [show TNode.getN m.root k = some v1 from h1]
    rfl
  · intro h1
    show TNode.getN (TNode.unionN m.root o.root) k = _
    rw [TNode.getN_unionN hm ho]
    rw [show TNode.getN m.root k = none from h1]
    rfl

/-- Witness for C9 at a concrete pair of maps and a key present in both. -/
theorem claim_C9_union_left_biased_witness :
    (wmapA.wf = true) ∧ (wmapB.wf = true) ∧
    ((∀ v1 v2 : Nat, wmapA.get [1, 2] = some v1 → wmapB.get [1, 2] = some v2 →
       (wmapA.union wmapB).get [1, 2] = some v1) ∧
     (wmapA.get [1, 2] = none → (wmapA.union wmapB).get [1, 2] = wmapB.get [1, 2])) :=
  ⟨by decide, by decide, claim_C9_union_left_biased wmapA wmapB (by decide) (by decide) [1, 2]⟩

/-- **C7**: in the non-interning build the tokenizer returns the input unchanged
when it is at most 63 bytes long, and exactly the first 63 bytes when the input
is 64 bytes or longer; it never fails. -/
theorem claim_C7_tokenizer_truncation (p : ParDataParser) (s : List Nat) :
    (s.length ≤ 63 → (p.tokenizer s).1 = s) ∧
    (64 ≤ s.length → (p.tokenizer s).1 = s.take 63) := by
  constructor
  · intro h
    rw [ParDataParser.tokenizer]
    simp only []
    rw [if_neg (by omega)]
    exact List.take_length s
  · intro h
    rw [ParDataParser.tokenizer]
    simp only []
    rw [if_pos (by omega)]

/-- Witness for C7 at a short and a long concrete input. -/
theorem claim_C7_tokenizer_truncation_witness :
    (([10, 20, 30] : List Nat).length ≤ 63 ∧
      (ParDataParser.nu.tokenizer [10, 20, 30]).1 = [10, 20, 30]) ∧
    (64 ≤ (List.replicate 64 (7 : Nat)).length ∧
      (ParDataParser.nu.tokenizer (List.replicate 64 7)).1 = (List.replicate 64 (7 : Nat)).take 63) :=
  ⟨⟨by decide,
    (claim_C7_tokenizer_truncation ParDataParser.nu [10, 20, 30]).1 (by decide)⟩,
   ⟨by decide,
    (claim_C7_tokenizer_truncation ParDataParser.nu (List.replicate 64 7)).2 (by decide)⟩⟩

/-- **C10**: `unify_recursive` is total (it is a function in this development,
so every call terminates), the configured default depth bound is 100, and as
soon as the context depth reaches `max_depth` the function answers `false`
without recursing further. -/
theorem claim_C10_unify_depth_bound :
    UnificationConfig.defaultConfig.max_depth = 100 ∧
    ∀ (e : ExprS) (p : PatternS) (ctx : MatchingContext),
      ctx.depth ≥ ctx.max_depth →
      (unify_recursive e p ctx).1 = false ∧ (unify_recursive e p ctx).2.varMap = ctx.varMap := by
  refine ⟨rfl, ?_⟩
  intro e p ctx h
  rw [unify_recursive, unifyRecAux.eq_def]
  rw [if_pos h]
  exact ⟨rfl, rfl⟩

/-- Witness for C10 at a concrete expression, pattern and saturated context. -/
theorem claim_C10_unify_depth_bound_witness :
    ((⟨100, [], 100⟩ : MatchingContext).depth ≥ (⟨100, [], 100⟩ : MatchingContext).max_depth) ∧
    ((unify_recursive (.symbol [1]) .wildcard ⟨100, [], 100⟩).1 = false ∧
      (unify_recursive (.symbol [1]) .wildcard ⟨100, [], 100⟩).2.varMap = []) :=
  ⟨by decide,
   claim_C10_unify_depth_bound.2 (.symbol [1]) .wildcard ⟨100, [], 100⟩ (by decide)⟩

theorem foldl_emit_eq (l : List (Nat × EToken)) (fromOff : Nat) (acc : List Nat) :
    l.foldl (fun acc ot => if ot.1 < fromOff then acc else acc ++ emitTok ot.2) acc =
      acc ++ (l.filter fun ot => !decide (ot.1 < fromOff)).flatMap (fun ot => emitTok ot.2) := by
  induction l generalizing acc with
  | nil => simp
  | cons hd tl ih =>
    rw [List.foldl_cons, List.filter_cons]
    by_cases h : hd.1 < fromOff
    · rw [if_pos h, ih]
      simp [h]
    · rw [if_neg h, ih]
      simp [h]

theorem foldl_compile_eq (ps : List (List Nat)) (acc : List Nat) :
    ps.foldl (fun acc p =>
        acc ++ referential_bidirectional_matching_stack_traverse p (prefixBytes p).length) acc =
      acc ++ ps.flatMap
        (fun p => referential_bidirectional_matching_stack_traverse p (prefixBytes p).length) := by
  induction ps generalizing acc with
  | nil => simp
  | cons hd tl ih =>
    rw [List.foldl_cons, ih]
    simp

/-- **C3**: compilation walks the pattern and, for each token at or past the
constant prefix, emits `BEGIN_RANGE, ITER_EXPR, FINALIZE_RANGE` for NewVar,
`REFER_RANGE, i` for VarRef(i), `ITER_VAR_SYMBOL, size, bytes` for a symbol and
`ITER_VAR_ARITY, a` for an arity — the compiled vector is that emission stream
reversed for right-to-left consumption; and the driver's assembled program
consists of the patterns' opcode streams with the single `ACTION` opcode at the
bottom of the stack (position 0 of the vector), so it is consumed only after
every match opcode of every pattern has been consumed. -/
theorem claim_C3_compile_shape (e : List Nat) (fromOff : Nat) (patterns : List (List Nat)) :
    (referential_bidirectional_matching_stack_traverse e fromOff =
      (((tokensFrom e 0).filter fun ot => !decide (ot.1 < fromOff)).flatMap
        (fun ot => emitTok ot.2)).reverse) ∧
    (mkStackVec patterns = ACTION :: (patterns.reverse.flatMap
      fun p => referential_bidirectional_matching_stack_traverse p (prefixBytes p).length)) ∧
    ((mkStackVec patterns).reverse = (patterns.flatMap fun p =>
        (((tokensFrom p 0).filter fun ot => !decide (ot.1 < (prefixBytes p).length)).flatMap
          (fun ot => emitTok ot.2))) ++ [ACTION]) := by
  refine ⟨?_, ?_, ?_⟩
  · rw [referential_bidirectional_matching_stack_traverse, foldl_emit_eq]
    rw [List.nil_append]
  · rw [mkStackVec, foldl_compile_eq, List.nil_append]
  · rw [mkStackVec, foldl_compile_eq, List.nil_append, List.reverse_cons]
    congr 1
    induction patterns with
    | nil => simp
    | cons hd tl ih =>
      rw [List.reverse_cons, List.flatMap_append, List.reverse_append, ih, List.flatMap_cons]
      congr 1
      simp only [List.flatMap_cons, List.flatMap_nil, List.append_nil]
      rw [referential_bidirectional_matching_stack_traverse, foldl_emit_eq]
      rw [List.nil_append, List.reverse_reverse]

theorem andThen_ok {E A : Type} {r : Option (Except E (TState A))}
    {k : TState A → Option (Except E (TState A))} {s : TState A}
    (h : andThen r k = some (.ok s)) :
    ∃ s1, r = some (.ok s1) ∧ k s1 = some (.ok s) := by
  cases r with
  | none => rw [andThen] at h; cases h
  | some x =>
    cases x with
    | error e => rw [andThen] at h; simp at h
    | ok s1 => rw [andThen] at h; exact ⟨s1, rfl, h⟩

theorem forVars_stack {E A : Type}
    {cont : List Nat → Zip → List Nat → A → Option (Except E (TState A))}
    (hc : ∀ st z refs acc s, cont st z refs acc = some (.ok s) → s.stack = st) :
    ∀ (bs st : List Nat) (z : Zip) (refs : List Nat) (acc : A) (s : TState A),
      forVars cont bs st z refs acc = some (.ok s) → s.stack = st := by
  intro bs
  induction bs with
  | nil =>
    intro st z refs acc s h
    rw [forVars] at h
    simp only [Option.some.injEq, Except.ok.injEq] at h
    rw [← h]
  | cons b bs ih =>
    intro st z refs acc s h
    rw [forVars] at h
    by_cases hon : (z.descend_to [b]).onTrie
    · rw [if_pos hon] at h
      rcases andThen_ok h with ⟨s1, h1, h2⟩
      have ha := hc _ _ _ _ _ h1
      have hb := ih _ _ _ _ _ h2
      rw [hb, ha]
    · rw [if_neg hon] at h
      exact ih _ _ _ _ _ h

theorem forSymSizes_stack {E A : Type}
    {cont : List Nat → Zip → List Nat → A → Option (Except E (TState A))}
    (hc : ∀ st z refs acc s, cont st z refs acc = some (.ok s) → s.stack = st) :
    ∀ (bs st : List Nat) (z : Zip) (refs : List Nat) (acc : A) (s : TState A),
      forSymSizes cont bs st z refs acc = some (.ok s) → s.stack = st := by
  intro bs
  induction bs with
  | nil =>
    intro st z refs acc s h
    rw [forSymSizes] at h
    simp only [Option.some.injEq, Except.ok.injEq] at h
    rw [← h]
  | cons b bs ih =>
    intro st z refs acc s h
    rw [forSymSizes] at h
    cases hbi : byte_item b with
    | none => rw [hbi] at h; cases h
    | some t =>
      rw [hbi] at h
      cases t with
      | newVar => cases h
      | varRef i => cases h
      | arity a => cases h
      | symbolSize sz =>
        cases st with
        | nil =>
          replace h :
              (if (z.descend_to [b]).onTrie then (none : Option (Except E (TState A)))
              else forSymSizes cont bs [] ((z.descend_to [b]).ascend 1) refs acc)
              = some (.ok s) := h
          by_cases hon : (z.descend_to [b]).onTrie
          · rw [if_pos hon] at h; cases h
          · rw [if_neg hon] at h; exact ih _ _ _ _ _ h
        | cons lastv rest2 =>
          replace h :
              (if (z.descend_to [b]).onTrie then
                andThen (cont (lastv :: sz :: rest2) (z.descend_to [b]) refs acc) fun s2 =>
                  forSymSizes cont bs (lastv :: s2.stack.drop 2) (s2.z.ascend 1) s2.refs s2.acc
              else
                forSymSizes cont bs (lastv :: rest2) ((z.descend_to [b]).ascend 1) refs acc)
              = some (.ok s) := h
          by_cases hon : (z.descend_to [b]).onTrie
          · rw [if_pos hon] at h
            rcases andThen_ok h with ⟨s1, h1, h2⟩
            have hs1 : s1.stack = lastv :: sz :: rest2 := hc _ _ _ _ _ h1
            have hs2 := ih _ _ _ _ _ h2
            rw [hs2, hs1]
            rfl
          · rw [if_neg hon] at h
            exact ih _ _ _ _ _ h

theorem forArities_stack {E A : Type}
    {cont : List Nat → Zip → List Nat → A → Option (Except E (TState A))}
    (hc : ∀ st z refs acc s, cont st z refs acc = some (.ok s) → s.stack = st) :
    ∀ (bs st : List Nat) (z : Zip) (refs : List Nat) (acc : A) (s : TState A),
      forArities cont bs st z refs acc = some (.ok s) → s.stack = st := by
  intro bs
  induction bs with
  | nil =>
    intro st z refs acc s h
    rw [forArities] at h
    simp only [Option.some.injEq, Except.ok.injEq] at h
    rw [← h]
  | cons b bs ih =>
    intro st z refs acc s h
    rw [forArities] at h
    cases hbi : byte_item b with
    | none => rw [hbi] at h; cases h
    | some t =>
      rw [hbi] at h
      cases t with
      | newVar => cases h
      | varRef i => cases h
      | symbolSize sz => cases h
      | arity a =>
        cases st with
        | nil =>
          replace h :
              (if (z.descend_to [b]).onTrie then (none : Option (Except E (TState A)))
              else forArities cont bs [] ((z.descend_to [b]).ascend 1) refs acc)
              = some (.ok s) := h
          by_cases hon : (z.descend_to [b]).onTrie
          · rw [if_pos hon] at h; cases h
          · rw [if_neg hon] at h; exact ih _ _ _ _ _ h
        | cons lastv rest2 =>
          replace h :
              (if (z.descend_to [b]).onTrie then
                andThen (cont (lastv :: a :: rest2) (z.descend_to [b]) refs acc) fun s2 =>
                  forArities cont bs (lastv :: s2.stack.drop 2) (s2.z.ascend 1) s2.refs s2.acc
              else
                forArities cont bs (lastv :: rest2) ((z.descend_to [b]).ascend 1) refs acc)
              = some (.ok s) := h
          by_cases hon : (z.descend_to [b]).onTrie
          · rw [if_pos hon] at h
            rcases andThen_ok h with ⟨s1, h1, h2⟩
            have hs1 : s1.stack = lastv :: a :: rest2 := hc _ _ _ _ _ h1
            have hs2 := ih _ _ _ _ _ h2
            rw [hs2, hs1]
            rfl
          · rw [if_neg hon] at h
            exact ih _ _ _ _ _ h

theorem forPaths_stack {E A : Type}
    {cont : List Nat → Zip → List Nat → A → Option (Except E (TState A))}
    (hc : ∀ st z refs acc s, cont st z refs acc = some (.ok s) → s.stack = st) :
    ∀ (ps : List (List Nat)) (st : List Nat) (z : Zip) (refs : List Nat) (acc : A) (s : TState A),
      forPaths cont ps st z refs acc = some (.ok s) → s.stack = st := by
  intro ps
  induction ps with
  | nil =>
    intro st z refs acc s h
    rw [forPaths] at h
    simp only [Option.some.injEq, Except.ok.injEq] at h
    rw [← h]
  | cons p ps ih =>
    intro st z refs acc s h
    rw [forPaths] at h
    rcases andThen_ok h with ⟨s1, h1, h2⟩
    have ha := hc _ _ _ _ _ h1
    have hb := ih _ _ _ _ _ h2
    rw [hb, ha]

/-- The engine restores the stack: whenever a dispatched handler returns
normally, the stack it leaves behind is byte-identical to the stack it was
entered on. -/
theorem rt_stack_restores {E A : Type} (act : A → List Nat → Zip → Except E A) :
    ∀ (fuel : Nat) (st : List Nat) (z : Zip) (refs : List Nat) (acc : A) (s : TState A),
      rt act fuel st z refs acc = some (.ok s) → s.stack = st := by
  intro fuel
  induction fuel with
  | zero =>
    intro st z refs acc s h
    exact Option.noConfusion h
  | succ fuel ih =>
    intro st z refs acc s h
    match st with
    | [] => exact Option.noConfusion h
    | op :: rest =>
      rcases andThen_ok h with ⟨s0, h0, hwrap⟩
      simp only [Option.some.injEq, Except.ok.injEq] at hwrap
      rw [← hwrap]
      show op :: s0.stack = op :: rest
      have hmain : s0.stack = rest := by
        clear hwrap h
        by_cases hop1 : op = ACTION
        · rw [if_pos hop1] at h0
          cases hact : act acc refs z with
          | ok a2 =>
            rw [hact] at h0
            simp only [Option.some.injEq, Except.ok.injEq] at h0
            rw [← h0]
          | error e => rw [hact] at h0; simp at h0
        · rw [if_neg hop1] at h0
          by_cases hop2 : op = ITER_AT_DEPTH
          · rw [if_pos hop2] at h0
            cases rest with
            | nil => cases h0
            | cons level rest2 =>
              rcases andThen_ok h0 with ⟨s1, h1, h2⟩
              have hs1 : s1.stack = rest2 :=
                forPaths_stack (fun st2 z2 r2 a2 s2 hx => ih st2 z2 r2 a2 s2 hx) _ _ _ _ _ _ h1
              simp only [Option.some.injEq, Except.ok.injEq] at h2
              rw [← h2, hs1]
          · rw [if_neg hop2] at h0
            by_cases hop3 : op = ITER_SYMBOL_SIZE
            · rw [if_pos hop3] at h0
              exact forSymSizes_stack (fun st2 z2 r2 a2 s2 hx => ih st2 z2 r2 a2 s2 hx)
                _ _ _ _ _ _ h0
            · rw [if_neg hop3] at h0
              by_cases hop4 : op = ITER_SYMBOLS
              · rw [if_pos hop4] at h0
                rcases andThen_ok h0 with ⟨s1, h1, h2⟩
                have hs1 := ih _ _ _ _ _ h1
                simp only [Option.some.injEq, Except.ok.injEq] at h2
                rw [← h2, hs1]
                rfl
              · rw [if_neg hop4] at h0
                by_cases hop5 : op = ITER_VARIABLES
                · rw [if_pos hop5] at h0
                  exact forVars_stack (fun st2 z2 r2 a2 s2 hx => ih st2 z2 r2 a2 s2 hx)
                    _ _ _ _ _ _ h0
                · rw [if_neg hop5] at h0
                  by_cases hop6 : op = ITER_ARITIES
                  · rw [if_pos hop6] at h0
                    exact forArities_stack (fun st2 z2 r2 a2 s2 hx => ih st2 z2 r2 a2 s2 hx)
                      _ _ _ _ _ _ h0
                  · rw [if_neg hop6] at h0
                    by_cases hop7 : op = ITER_EXPR
                    · rw [if_pos hop7] at h0
                      rcases andThen_ok h0 with ⟨s1, h1, hrest1⟩
                      rcases andThen_ok hrest1 with ⟨s2, h2, hrest2⟩
                      rcases andThen_ok hrest2 with ⟨s3, h3, h4⟩
                      have hs1 := ih _ _ _ _ _ h1
                      have hs2 := ih _ _ _ _ _ h2
                      have hs3 := ih _ _ _ _ _ h3
                      simp only [Option.some.injEq, Except.ok.injEq] at h4
                      rw [← h4, hs3, hs2, hs1]
                      simp
                    · rw [if_neg hop7] at h0
                      by_cases hop8 : op = ITER_NESTED
                      · rw [if_pos hop8] at h0
                        cases rest with
                        | nil => cases h0
                        | cons arity rest2 =>
                          simp only [] at h0
                          by_cases ha : arity = 0
                          · rw [if_pos ha] at h0
                            rcases andThen_ok h0 with ⟨s1, h1, h2⟩
                            have hs1 := ih _ _ _ _ _ h1
                            simp only [Option.some.injEq, Except.ok.injEq] at h2
                            rw [← h2, hs1, ha]
                          · rw [if_neg ha] at h0
                            rcases andThen_ok h0 with ⟨s1, h1, h2⟩
                            have hs1 := ih _ _ _ _ _ h1
                            simp only [Option.some.injEq, Except.ok.injEq] at h2
                            rw [← h2, hs1]
                            simp only [List.tail_cons]
                            rw [List.drop_left']
                            exact List.length_replicate _ _
                      · rw [if_neg hop8] at h0
                        by_cases hop9 : op = ITER_SYMBOL
                        · rw [if_pos hop9] at h0
                          cases rest with
                          | nil => cases h0
                          | cons size rest2 =>
                            simp only [] at h0
                            by_cases hlen : rest2.length < size
                            · rw [if_pos hlen] at h0; cases h0
                            · rw [if_neg hlen] at h0
                              rcases andThen_ok h0 with ⟨s1, h1, h2⟩
                              simp only [Option.some.injEq, Except.ok.injEq] at h2
                              have hs1 : s1.stack = rest2.drop size := by
                                by_cases hon1 : (z.descend_to [item_byte (.symbolSize size)]).onTrie
                                · rw [if_pos hon1] at h1
                                  by_cases hon2 : ((z.descend_to [item_byte (.symbolSize size)]).descend_to (rest2.take size)).onTrie
                                  · rw [if_pos hon2] at h1
                                    rcases andThen_ok h1 with ⟨s2, h3, h4⟩
                                    have hs2 := ih _ _ _ _ _ h3
                                    simp only [Option.some.injEq, Except.ok.injEq] at h4
                                    rw [← h4, hs2]
                                  · rw [if_neg hon2] at h1
                                    simp only [Option.some.injEq, Except.ok.injEq] at h1
                                    rw [← h1]
                                · rw [if_neg hon1] at h1
                                  simp only [Option.some.injEq, Except.ok.injEq] at h1
                                  rw [← h1]
                              rw [← h2, hs1]
                              simp only [List.cons.injEq, true_and]
                              exact List.take_append_drop size rest2
                        · rw [if_neg hop9] at h0
                          by_cases hop10 : op = ITER_VAR_SYMBOL
                          · rw [if_pos hop10] at h0
                            cases rest with
                            | nil => cases h0
                            | cons size rest2 =>
                              simp only [] at h0
                              by_cases hlen : rest2.length < size
                              · rw [if_pos hlen] at h0; cases h0
                              · rw [if_neg hlen] at h0
                                rcases andThen_ok h0 with ⟨s1, h1, hrest1⟩
                                have hs1 := ih _ _ _ _ _ h1
                                rcases andThen_ok hrest1 with ⟨s3, h3, h4⟩
                                simp only [Option.some.injEq, Except.ok.injEq] at h4
                                have hs3 : s3.stack = rest2.drop size := by
                                  by_cases hon1 : ((s1.z).descend_to [item_byte (.symbolSize size)]).onTrie
                                  · rw [if_pos hon1] at h3
                                    by_cases hon2 : (((s1.z).descend_to [item_byte (.symbolSize size)]).descend_to (rest2.take size)).onTrie
                                    · rw [if_pos hon2] at h3
                                      rcases andThen_ok h3 with ⟨s2, h5, h6⟩
                                      have hs2 := ih _ _ _ _ _ h5
                                      simp only [Option.some.injEq, Except.ok.injEq] at h6
                                      rw [← h6, hs2, hs1]
                                      simp
                                    · rw [if_neg hon2] at h3
                                      simp only [Option.some.injEq, Except.ok.injEq] at h3
                                      rw [← h3, hs1]
                                      simp
                                  · rw [if_neg hon1] at h3
                                    simp only [Option.some.injEq, Except.ok.injEq] at h3
                                    rw [← h3, hs1]
                                    simp
                                rw [← h4, hs3]
                                simp only [List.cons.injEq, true_and]
                                exact List.take_append_drop size rest2
                          · rw [if_neg hop10] at h0
                            by_cases hop11 : op = ITER_ARITY
                            · rw [if_pos hop11] at h0
                              cases rest with
                              | nil => cases h0
                              | cons arity rest2 =>
                                simp only [] at h0
                                by_cases hon : (z.descend_to [item_byte (.arity arity)]).onTrie
                                · rw [if_pos hon] at h0
                                  rcases andThen_ok h0 with ⟨s1, h1, h2⟩
                                  have hs1 := ih _ _ _ _ _ h1
                                  simp only [Option.some.injEq, Except.ok.injEq] at h2
                                  rw [← h2, hs1]
                                · rw [if_neg hon] at h0
                                  simp only [Option.some.injEq, Except.ok.injEq] at h0
                                  rw [← h0]
                            · rw [if_neg hop11] at h0
                              by_cases hop12 : op = ITER_VAR_ARITY
                              · rw [if_pos hop12] at h0
                                cases rest with
                                | nil => cases h0
                                | cons arity rest2 =>
                                  rcases andThen_ok h0 with ⟨s1, h1, hrest1⟩
                                  have hs1 := ih _ _ _ _ _ h1
                                  by_cases hon : ((s1.z).descend_to [item_byte (.arity arity)]).onTrie
                                  · rw [if_pos hon] at hrest1
                                    rcases andThen_ok hrest1 with ⟨s2, h2, h3⟩
                                    have hs2 := ih _ _ _ _ _ h2
                                    simp only [Option.some.injEq, Except.ok.injEq] at h3
                                    rw [← h3, hs2, hs1]
                                    simp
                                  · rw [if_neg hon] at hrest1
                                    simp only [Option.some.injEq, Except.ok.injEq] at hrest1
                                    rw [← hrest1, hs1]
                                    simp
                              · rw [if_neg hop12] at h0
                                by_cases hop13 : op = BEGIN_RANGE
                                · rw [if_pos hop13] at h0
                                  rcases andThen_ok h0 with ⟨s1, h1, h2⟩
                                  have hs1 := ih _ _ _ _ _ h1
                                  simp only [Option.some.injEq, Except.ok.injEq] at h2
                                  rw [← h2, hs1]
                                · rw [if_neg hop13] at h0
                                  by_cases hop14 : op = FINALIZE_RANGE
                                  · rw [if_pos hop14] at h0
                                    exact ih _ _ _ _ _ h0
                                  · rw [if_neg hop14] at h0
                                    by_cases hop15 : op = REFER_RANGE
                                    · rw [if_pos hop15] at h0
                                      cases rest with
                                      | nil => cases h0
                                      | cons index rest2 =>
                                        simp only [] at h0
                                        cases hget : refs.get? index with
                                        | none => rw [hget] at h0; cases h0
                                        | some off =>
                                          rw [hget] at h0
                                          simp only [] at h0
                                          cases htk : exprTokens 1 ((z.origin_path).drop off) with
                                          | none => rw [htk] at h0; cases h0
                                          | some tc =>
                                            rw [htk] at h0
                                            rcases andThen_ok h0 with ⟨s1, h1, h2⟩
                                            have hs1 := ih _ _ _ _ _ h1
                                            simp only [Option.some.injEq, Except.ok.injEq] at h2
                                            rw [← h2, hs1]
                                            simp only [List.cons.injEq, true_and]
                                            exact List.drop_left _ _
                                    · rw [if_neg hop15] at h0
                                      cases h0
      rw [hmain]

/-- C4: for every opcode the transition engine executes (including the
operand-popping ITER_AT_DEPTH, ITER_SYMBOL, ITER_VAR_SYMBOL, ITER_ARITY,
ITER_NESTED and REFER_RANGE), whenever the dispatched handler returns
normally, the stack from the saved top position downward is byte-identical
to its state on entry: `referential_transition` is a pure interpreter over
the stack. -/
theorem claim_C4_stack_restoration {E A : Type}
    (act : A → List Nat → Zip → Except E A)
    (fuel : Nat) (st : List Nat) (z : Zip) (refs : List Nat) (acc : A)
    (s : TState A) (h : rt act fuel st z refs acc = some (.ok s)) :
    s.stack = st :=
  rt_stack_restores act fuel st z refs acc s h

theorem claim_C4_stack_restoration_witness :
    rt (fun (c : Nat) (_ : List Nat) (_ : Zip) => (Except.ok (c + 1) : Except Unit Nat))
        1 [ACTION, 7] ⟨[], TNode.nu, []⟩ [] 0
      = some (.ok ⟨[ACTION, 7], ⟨[], TNode.nu, []⟩, [], 1⟩) ∧
    TState.stack (A := Nat) ⟨[ACTION, 7], ⟨[], TNode.nu, []⟩, [], 1⟩ = [ACTION, 7] :=
  ⟨rfl, claim_C4_stack_restoration
    (fun (c : Nat) (_ : List Nat) (_ : Zip) => (Except.ok (c + 1) : Except Unit Nat))
    1 [ACTION, 7] ⟨[], TNode.nu, []⟩ [] 0 _ rfl⟩

theorem firstErrOn_append {E : Type} (eff : List Nat → Zip → Except E Unit)
    (d1 d2 : List QMatch) :
    firstErrOn eff (d1 ++ d2) =
      (match firstErrOn eff d1 with
       | some e => some e
       | none => firstErrOn eff d2) := by
  induction d1 with
  | nil => rw [List.nil_append]; rfl
  | cons m r ih =>
    rw [List.cons_append, firstErrOn, firstErrOn]
    cases eff m.1 m.2 <;> simp [ih]

theorem SimRun_pure {E : Type} {eff : List Nat → Zip → Except E Unit}
    (stk : List Nat) (zz : Zip) (rf : List Nat) (l : List QMatch) :
    SimRun eff (some (.ok ⟨stk, zz, rf, l⟩)) l (fun m => some (.ok ⟨stk, zz, rf, m⟩)) := by
  intro sC h n
  obtain rfl := Except.ok.inj (Option.some.inj h)
  exact ⟨[], by simp, by simp [firstErrOn]⟩

theorem SimRun_andThen {E : Type} {eff : List Nat → Zip → Except E Unit}
    {x1 : Option (Except E (TState (List QMatch)))}
    {k1 : TState (List QMatch) → Option (Except E (TState (List QMatch)))}
    {l : List QMatch}
    {x2 : Nat → Option (Except E (TState Nat))}
    {k2 : TState Nat → Option (Except E (TState Nat))}
    (hx : SimRun eff x1 l x2)
    (hk : ∀ s1, x1 = some (.ok s1) →
      SimRun eff (k1 s1) s1.acc (fun m => k2 ⟨s1.stack, s1.z, s1.refs, m⟩)) :
    SimRun eff (andThen x1 k1) l (fun n => andThen (x2 n) k2) := by
  intro sC h n
  rcases andThen_ok h with ⟨s1, h1, h2⟩
  rcases hx s1 h1 n with ⟨d1, hacc1, hr1⟩
  rcases hk s1 h1 sC h2 (n + d1.length) with ⟨d2, hacc2, hr2⟩
  refine ⟨d1 ++ d2, by rw [hacc2, hacc1, List.append_assoc], ?_⟩
  rw [firstErrOn_append]
  cases he1 : firstErrOn eff d1 with
  | some e =>
    rw [he1] at hr1
    simp only [] at hr1
    simp only []
    rw [hr1]
    rfl
  | none =>
    rw [he1] at hr1
    simp only [] at hr1
    simp only [] at hr2
    simp only []
    rw [hr1]
    show k2 ⟨s1.stack, s1.z, s1.refs, n + d1.length⟩ = _
    rw [hr2]
    cases he2 : firstErrOn eff d2 <;>
      simp [List.length_append, Nat.add_assoc]

theorem forPaths_sim {E : Type} {eff : List Nat → Zip → Except E Unit}
    {c1 : List Nat → Zip → List Nat → List QMatch → Option (Except E (TState (List QMatch)))}
    {c2 : List Nat → Zip → List Nat → Nat → Option (Except E (TState Nat))}
    (hsim : SimCont eff c1 c2) :
    ∀ ps, SimCont eff (forPaths c1 ps) (forPaths c2 ps) := by
  intro ps
  induction ps with
  | nil => intro st z refs l; exact SimRun_pure st z refs l
  | cons p ps ih =>
    intro st z refs l sC h n
    rw [forPaths] at h
    rw [forPaths]
    exact SimRun_andThen (hsim st (z.descend_to p) refs l)
      (fun s1 _ => ih s1.stack (s1.z.ascend p.length) s1.refs s1.acc) sC h n

theorem forVars_sim {E : Type} {eff : List Nat → Zip → Except E Unit}
    {c1 : List Nat → Zip → List Nat → List QMatch → Option (Except E (TState (List QMatch)))}
    {c2 : List Nat → Zip → List Nat → Nat → Option (Except E (TState Nat))}
    (hsim : SimCont eff c1 c2) :
    ∀ bs, SimCont eff (forVars c1 bs) (forVars c2 bs) := by
  intro bs
  induction bs with
  | nil => intro st z refs l; exact SimRun_pure st z refs l
  | cons b bs ih =>
    intro st z refs l sC h n
    rw [forVars] at h
    rw [forVars]
    by_cases hon : (z.descend_to [b]).onTrie
    · rw [if_pos hon] at h
      rw [if_pos hon]
      exact SimRun_andThen (hsim st (z.descend_to [b]) refs l)
        (fun s1 _ => ih s1.stack (s1.z.ascend 1) s1.refs s1.acc) sC h n
    · rw [if_neg hon] at h
      rw [if_neg hon]
      exact ih st ((z.descend_to [b]).ascend 1) refs l sC h n

theorem forSymSizes_eq_nil {E A : Type}
    (cont : List Nat → Zip → List Nat → A → Option (Except E (TState A)))
    (b : Nat) (bs : List Nat) (z : Zip) (refs : List Nat) (acc : A) (sz : Nat)
    (hbi : byte_item b = some (.symbolSize sz)) :
    forSymSizes cont (b :: bs) [] z refs acc =
      if (z.descend_to [b]).onTrie then none
      else forSymSizes cont bs [] ((z.descend_to [b]).ascend 1) refs acc := by
  rw [forSymSizes, hbi]

theorem forSymSizes_eq_cons {E A : Type}
    (cont : List Nat → Zip → List Nat → A → Option (Except E (TState A)))
    (b : Nat) (bs : List Nat) (lastv : Nat) (rest2 : List Nat) (z : Zip)
    (refs : List Nat) (acc : A) (sz : Nat)
    (hbi : byte_item b = some (.symbolSize sz)) :
    forSymSizes cont (b :: bs) (lastv :: rest2) z refs acc =
      if (z.descend_to [b]).onTrie then
        andThen (cont (lastv :: sz :: rest2) (z.descend_to [b]) refs acc) fun s2 =>
          forSymSizes cont bs (lastv :: s2.stack.drop 2) (s2.z.ascend 1) s2.refs s2.acc
      else forSymSizes cont bs (lastv :: rest2) ((z.descend_to [b]).ascend 1) refs acc := by
  rw [forSymSizes, hbi]

theorem forSymSizes_sim {E : Type} {eff : List Nat → Zip → Except E Unit}
    {c1 : List Nat → Zip → List Nat → List QMatch → Option (Except E (TState (List QMatch)))}
    {c2 : List Nat → Zip → List Nat → Nat → Option (Except E (TState Nat))}
    (hsim : SimCont eff c1 c2) :
    ∀ bs, SimCont eff (forSymSizes c1 bs) (forSymSizes c2 bs) := by
  intro bs
  induction bs with
  | nil => intro st z refs l; exact SimRun_pure st z refs l
  | cons b bs ih =>
    intro st z refs l sC h n
    cases hbi : byte_item b with
    | none =>
      rw [forSymSizes, hbi] at h
      exact Option.noConfusion h
    | some t =>
      cases t with
      | newVar => rw [forSymSizes, hbi] at h; exact Option.noConfusion h
      | varRef i => rw [forSymSizes, hbi] at h; exact Option.noConfusion h
      | arity a => rw [forSymSizes, hbi] at h; exact Option.noConfusion h
      | symbolSize sz =>
        cases st with
        | nil =>
          rw [forSymSizes_eq_nil c1 b bs z refs l sz hbi] at h
          rw [forSymSizes_eq_nil c2 b bs z refs n sz hbi]
          by_cases hon : (z.descend_to [b]).onTrie
          · rw [if_pos hon] at h
            exact Option.noConfusion h
          · rw [if_neg hon] at h
            rw [if_neg hon]
            exact ih [] ((z.descend_to [b]).ascend 1) refs l sC h n
        | cons lastv rest2 =>
          rw [forSymSizes_eq_cons c1 b bs lastv rest2 z refs l sz hbi] at h
          rw [forSymSizes_eq_cons c2 b bs lastv rest2 z refs n sz hbi]
          by_cases hon : (z.descend_to [b]).onTrie
          · rw [if_pos hon] at h
            rw [if_pos hon]
            exact SimRun_andThen (hsim (lastv :: sz :: rest2) (z.descend_to [b]) refs l)
              (fun s2 _ => ih (lastv :: s2.stack.drop 2) (s2.z.ascend 1) s2.refs s2.acc) sC h n
          · rw [if_neg hon] at h
            rw [if_neg hon]
            exact ih (lastv :: rest2) ((z.descend_to [b]).ascend 1) refs l sC h n

theorem forArities_eq_nil {E A : Type}
    (cont : List Nat → Zip → List Nat → A → Option (Except E (TState A)))
    (b : Nat) (bs : List Nat) (z : Zip) (refs : List Nat) (acc : A) (a : Nat)
    (hbi : byte_item b = some (.arity a)) :
    forArities cont (b :: bs) [] z refs acc =
      if (z.descend_to [b]).onTrie then none
      else forArities cont bs [] ((z.descend_to [b]).ascend 1) refs acc := by
  rw [forArities, hbi]

theorem forArities_eq_cons {E A : Type}
    (cont : List Nat → Zip → List Nat → A → Option (Except E (TState A)))
    (b : Nat) (bs : List Nat) (lastv : Nat) (rest2 : List Nat) (z : Zip)
    (refs : List Nat) (acc : A) (a : Nat)
    (hbi : byte_item b = some (.arity a)) :
    forArities cont (b :: bs) (lastv :: rest2) z refs acc =
      if (z.descend_to [b]).onTrie then
        andThen (cont (lastv :: a :: rest2) (z.descend_to [b]) refs acc) fun s2 =>
          forArities cont bs (lastv :: s2.stack.drop 2) (s2.z.ascend 1) s2.refs s2.acc
      else forArities cont bs (lastv :: rest2) ((z.descend_to [b]).ascend 1) refs acc := by
  rw [forArities, hbi]

theorem forArities_sim {E : Type} {eff : List Nat → Zip → Except E Unit}
    {c1 : List Nat → Zip → List Nat → List QMatch → Option (Except E (TState (List QMatch)))}
    {c2 : List Nat → Zip → List Nat → Nat → Option (Except E (TState Nat))}
    (hsim : SimCont eff c1 c2) :
    ∀ bs, SimCont eff (forArities c1 bs) (forArities c2 bs) := by
  intro bs
  induction bs with
  | nil => intro st z refs l; exact SimRun_pure st z refs l
  | cons b bs ih =>
    intro st z refs l sC h n
    cases hbi : byte_item b with
    | none =>
      rw [forArities, hbi] at h
      exact Option.noConfusion h
    | some t =>
      cases t with
      | newVar => rw [forArities, hbi] at h; exact Option.noConfusion h
      | varRef i => rw [forArities, hbi] at h; exact Option.noConfusion h
      | symbolSize sz => rw [forArities, hbi] at h; exact Option.noConfusion h
      | arity a =>
        cases st with
        | nil =>
          rw [forArities_eq_nil c1 b bs z refs l a hbi] at h
          rw [forArities_eq_nil c2 b bs z refs n a hbi]
          by_cases hon : (z.descend_to [b]).onTrie
          · rw [if_pos hon] at h
            exact Option.noConfusion h
          · rw [if_neg hon] at h
            rw [if_neg hon]
            exact ih [] ((z.descend_to [b]).ascend 1) refs l sC h n
        | cons lastv rest2 =>
          rw [forArities_eq_cons c1 b bs lastv rest2 z refs l a hbi] at h
          rw [forArities_eq_cons c2 b bs lastv rest2 z refs n a hbi]
          by_cases hon : (z.descend_to [b]).onTrie
          · rw [if_pos hon] at h
            rw [if_pos hon]
            exact SimRun_andThen (hsim (lastv :: a :: rest2) (z.descend_to [b]) refs l)
              (fun s2 _ => ih (lastv :: s2.stack.drop 2) (s2.z.ascend 1) s2.refs s2.acc) sC h n
          · rw [if_neg hon] at h
            rw [if_neg hon]
            exact ih (lastv :: rest2) ((z.descend_to [b]).ascend 1) refs l sC h n

/-- The full simulation between the collecting run and the driver's
counting/aborting run of `referential_transition`: the effectful run aborts at
the first hook error among the matches the pure run logs, and otherwise
returns the same machine state with the candidate count advanced by the
number of matches. -/
theorem rt_sim {E : Type} (eff : List Nat → Zip → Except E Unit) :
    ∀ fuel, SimCont eff (rt actCollect fuel) (rt (actEffect eff) fuel) := by
  intro fuel
  induction fuel with
  | zero =>
    intro st z refs l sC h
    exact Option.noConfusion h
  | succ fuel ih =>
    intro st z refs l
    match st with
    | [] =>
      intro sC h
      exact Option.noConfusion h
    | op :: rest =>
      refine SimRun_andThen ?_ (fun s1 _ => SimRun_pure (op :: s1.stack) s1.z s1.refs s1.acc)
      by_cases hop1 : op = ACTION
      · simp only [if_pos hop1]
        intro sC h n
        obtain rfl := Except.ok.inj (Option.some.inj h)
        refine ⟨[(refs, z)], rfl, ?_⟩
        cases heff : eff refs z with
        | ok u => simp [actEffect, firstErrOn, heff]
        | error e => simp [actEffect, firstErrOn, heff]
      · simp only [if_neg hop1]
        by_cases hop2 : op = ITER_AT_DEPTH
        · simp only [if_pos hop2]
          cases rest with
          | nil => intro sC h; exact Option.noConfusion h
          | cons level rest2 =>
            simp only []
            refine SimRun_andThen ?_
              (fun s1 _ => SimRun_pure (level :: s1.stack) s1.z s1.refs s1.acc)
            exact forPaths_sim ih _ rest2 z refs l
        · simp only [if_neg hop2]
          by_cases hop3 : op = ITER_SYMBOL_SIZE
          · simp only [if_pos hop3]
            exact forSymSizes_sim ih (maskOf z SIZESlist) rest z refs l
          · simp only [if_neg hop3]
            by_cases hop4 : op = ITER_SYMBOLS
            · simp only [if_pos hop4]
              refine SimRun_andThen ?_
                (fun s1 _ => SimRun_pure s1.stack.tail.tail s1.z s1.refs s1.acc)
              exact ih (ITER_SYMBOL_SIZE :: ITER_AT_DEPTH :: rest) z refs l
            · simp only [if_neg hop4]
              by_cases hop5 : op = ITER_VARIABLES
              · simp only [if_pos hop5]
                exact forVars_sim ih (maskOf z VARSlist) rest z refs l
              · simp only [if_neg hop5]
                by_cases hop6 : op = ITER_ARITIES
                · simp only [if_pos hop6]
                  exact forArities_sim ih (maskOf z ARITIESlist) rest z refs l
                · simp only [if_neg hop6]
                  by_cases hop7 : op = ITER_EXPR
                  · simp only [if_pos hop7]
                    refine SimRun_andThen (ih (ITER_VARIABLES :: rest) z refs l) ?_
                    intro s1 _
                    refine SimRun_andThen
                      (ih (ITER_SYMBOLS :: s1.stack.tail) s1.z s1.refs s1.acc) ?_
                    intro s2 _
                    exact SimRun_andThen
                      (ih (ITER_ARITIES :: ITER_NESTED :: s2.stack.tail) s2.z s2.refs s2.acc)
                      (fun s3 _ => SimRun_pure s3.stack.tail.tail s3.z s3.refs s3.acc)
                  · simp only [if_neg hop7]
                    by_cases hop8 : op = ITER_NESTED
                    · simp only [if_pos hop8]
                      cases rest with
                      | nil => intro sC h; exact Option.noConfusion h
                      | cons arity rest2 =>
                        simp only []
                        by_cases ha : arity = 0
                        · simp only [if_pos ha]
                          exact SimRun_andThen (ih rest2 z refs l)
                            (fun s _ => SimRun_pure (arity :: s.stack) s.z s.refs s.acc)
                        · simp only [if_neg ha]
                          exact SimRun_andThen
                            (ih (ITER_EXPR ::
                              (List.replicate (arity - 1) ITER_EXPR ++ rest2)) z refs l)
                            (fun s _ => SimRun_pure
                              (arity :: (s.stack.tail.drop (arity - 1))) s.z s.refs s.acc)
                    · simp only [if_neg hop8]
                      by_cases hop9 : op = ITER_SYMBOL
                      · simp only [if_pos hop9]
                        cases rest with
                        | nil => intro sC h; exact Option.noConfusion h
                        | cons size rest2 =>
                          simp only []
                          by_cases hlen : rest2.length < size
                          · simp only [if_pos hlen]
                            intro sC h
                            exact Option.noConfusion h
                          · simp only [if_neg hlen]
                            refine SimRun_andThen ?_
                              (fun s _ => SimRun_pure
                                (size :: (rest2.take size ++ s.stack)) s.z s.refs s.acc)
                            by_cases hon1 :
                                (z.descend_to [item_byte (.symbolSize size)]).onTrie
                            · simp only [if_pos hon1]
                              by_cases hon2 :
                                  ((z.descend_to [item_byte (.symbolSize size)]).descend_to
                                    (rest2.take size)).onTrie
                              · simp only [if_pos hon2]
                                exact SimRun_andThen
                                  (ih (rest2.drop size)
                                    ((z.descend_to [item_byte (.symbolSize size)]).descend_to
                                      (rest2.take size)) refs l)
                                  (fun s _ => SimRun_pure s.stack
                                    ((s.z.ascend size).ascend 1) s.refs s.acc)
                              · simp only [if_neg hon2]
                                exact SimRun_pure (rest2.drop size)
                                  ((((z.descend_to [item_byte (.symbolSize size)]).descend_to
                                    (rest2.take size)).ascend size).ascend 1) refs l
                            · simp only [if_neg hon1]
                              exact SimRun_pure (rest2.drop size)
                                ((z.descend_to [item_byte (.symbolSize size)]).ascend 1) refs l
                      · simp only [if_neg hop9]
                        by_cases hop10 : op = ITER_VAR_SYMBOL
                        · simp only [if_pos hop10]
                          cases rest with
                          | nil => intro sC h; exact Option.noConfusion h
                          | cons size rest2 =>
                            simp only []
                            by_cases hlen : rest2.length < size
                            · simp only [if_pos hlen]
                              intro sC h
                              exact Option.noConfusion h
                            · simp only [if_neg hlen]
                              refine SimRun_andThen
                                (ih (ITER_VARIABLES :: rest2.drop size) z refs l) ?_
                              intro s1 _
                              refine SimRun_andThen ?_
                                (fun s3 _ => SimRun_pure
                                  (size :: (rest2.take size ++ s3.stack)) s3.z s3.refs s3.acc)
                              by_cases hon1 :
                                  ((s1.z).descend_to [item_byte (.symbolSize size)]).onTrie
                              · simp only [if_pos hon1]
                                by_cases hon2 :
                                    (((s1.z).descend_to
                                      [item_byte (.symbolSize size)]).descend_to
                                      (rest2.take size)).onTrie
                                · simp only [if_pos hon2]
                                  exact SimRun_andThen
                                    (ih s1.stack.tail
                                      (((s1.z).descend_to
                                        [item_byte (.symbolSize size)]).descend_to
                                        (rest2.take size)) s1.refs s1.acc)
                                    (fun s2 _ => SimRun_pure s2.stack
                                      ((s2.z.ascend size).ascend 1) s2.refs s2.acc)
                                · simp only [if_neg hon2]
                                  exact SimRun_pure s1.stack.tail
                                    (((((s1.z).descend_to
                                      [item_byte (.symbolSize size)]).descend_to
                                      (rest2.take size)).ascend size).ascend 1) s1.refs s1.acc
                              · simp only [if_neg hon1]
                                exact SimRun_pure s1.stack.tail
                                  (((s1.z).descend_to
                                    [item_byte (.symbolSize size)]).ascend 1) s1.refs s1.acc
                        · simp only [if_neg hop10]
                          by_cases hop11 : op = ITER_ARITY
                          · simp only [if_pos hop11]
                            cases rest with
                            | nil => intro sC h; exact Option.noConfusion h
                            | cons arity rest2 =>
                              simp only []
                              by_cases hon : (z.descend_to [item_byte (.arity arity)]).onTrie
                              · simp only [if_pos hon]
                                exact SimRun_andThen
                                  (ih rest2 (z.descend_to [item_byte (.arity arity)]) refs l)
                                  (fun s _ => SimRun_pure (arity :: s.stack)
                                    (s.z.ascend 1) s.refs s.acc)
                              · simp only [if_neg hon]
                                exact SimRun_pure (arity :: rest2)
                                  ((z.descend_to [item_byte (.arity arity)]).ascend 1) refs l
                          · simp only [if_neg hop11]
                            by_cases hop12 : op = ITER_VAR_ARITY
                            · simp only [if_pos hop12]
                              cases rest with
                              | nil => intro sC h; exact Option.noConfusion h
                              | cons arity rest2 =>
                                simp only []
                                refine SimRun_andThen
                                  (ih (ITER_VARIABLES :: rest2) z refs l) ?_
                                intro s1 _
                                by_cases hon :
                                    ((s1.z).descend_to [item_byte (.arity arity)]).onTrie
                                · simp only [if_pos hon]
                                  exact SimRun_andThen
                                    (ih s1.stack.tail
                                      ((s1.z).descend_to [item_byte (.arity arity)])
                                      s1.refs s1.acc)
                                    (fun s2 _ => SimRun_pure (arity :: s2.stack)
                                      (s2.z.ascend 1) s2.refs s2.acc)
                                · simp only [if_neg hon]
                                  exact SimRun_pure (arity :: s1.stack.tail)
                                    (((s1.z).descend_to
                                      [item_byte (.arity arity)]).ascend 1) s1.refs s1.acc
                            · simp only [if_neg hop12]
                              by_cases hop13 : op = BEGIN_RANGE
                              · simp only [if_pos hop13]
                                exact SimRun_andThen
                                  (ih rest z (refs ++ [(z.origin_path).length]) l)
                                  (fun s _ => SimRun_pure s.stack s.z s.refs.dropLast s.acc)
                              · simp only [if_neg hop13]
                                by_cases hop14 : op = FINALIZE_RANGE
                                · simp only [if_pos hop14]
                                  exact ih rest z refs l
                                · simp only [if_neg hop14]
                                  by_cases hop15 : op = REFER_RANGE
                                  · simp only [if_pos hop15]
                                    cases rest with
                                    | nil => intro sC h; exact Option.noConfusion h
                                    | cons index rest2 =>
                                      simp only []
                                      cases hget : refs.get? index with
                                      | none => intro sC h; exact Option.noConfusion h
                                      | some off =>
                                        simp only []
                                        cases htk :
                                            exprTokens 1 ((z.origin_path).drop off) with
                                        | none => intro sC h; exact Option.noConfusion h
                                        | some tc =>
                                          simp only []
                                          exact SimRun_andThen
                                            (ih (tc.1.flatMap emitRef ++ rest2) z refs l)
                                            (fun s _ => SimRun_pure
                                              (index :: s.stack.drop
                                                (tc.1.flatMap emitRef).length)
                                              s.z s.refs s.acc)
                                  · simp only [if_neg hop15]
                                    intro sC h
                                    exact Option.noConfusion h

/-- C5: for every space, pattern list and effect callback, `query_multi_impl`
returns `Ok` with the number of matches on which the callback succeeded when
no invocation errors (all of them, the count of the pure run's match log),
and when some invocation returns an error it stops matching and returns `Err`
carrying exactly that first error value. -/
theorem claim_C5_query_multi_outcome {E : Type} (eff : List Nat → Zip → Except E Unit)
    (space : TNode Unit) (patterns : List (List Nat)) (fuel : Nat)
    (sC : TState (List QMatch))
    (h : rt (actCollect (E := E)) fuel (mkStackVec patterns).reverse
        ⟨prefixBytes (patterns.headD []), queryProductRoot space patterns, []⟩ [] []
        = some (.ok sC)) :
    query_multi_impl eff space patterns fuel =
      (match firstErrOn eff sC.acc with
       | none => some (.ok sC.acc.length)
       | some e => some (.error e)) := by
  rcases rt_sim eff fuel (mkStackVec patterns).reverse
      ⟨prefixBytes (patterns.headD []), queryProductRoot space patterns, []⟩ [] [] sC h 0
    with ⟨delta, hacc, hrun⟩
  have hda : sC.acc = delta := by rw [hacc, List.nil_append]
  rw [query_multi_impl, hrun, hda]
  cases he : firstErrOn eff delta with
  | none => simp
  | some e => simp

theorem claim_C5_query_multi_outcome_witness :
    (rt (actCollect (E := Unit)) 1 (mkStackVec []).reverse
        ⟨prefixBytes (([] : List (List Nat)).headD []), queryProductRoot TNode.nu [], []⟩ [] []
        = some (.ok ⟨[ACTION],
          ⟨prefixBytes (([] : List (List Nat)).headD []), queryProductRoot TNode.nu [], []⟩, [],
          [([], ⟨prefixBytes (([] : List (List Nat)).headD []),
            queryProductRoot TNode.nu [], []⟩)]⟩)) ∧
    query_multi_impl (fun _ _ => (Except.ok () : Except Unit Unit)) TNode.nu [] 1
      = some (.ok 1) :=
  ⟨rfl,
    (claim_C5_query_multi_outcome (fun _ _ => (Except.ok () : Except Unit Unit))
      TNode.nu [] 1 ⟨[ACTION],
        ⟨prefixBytes (([] : List (List Nat)).headD []), queryProductRoot TNode.nu [], []⟩, [],
        [([], ⟨prefixBytes (([] : List (List Nat)).headD []),
          queryProductRoot TNode.nu [], []⟩)]⟩ rfl).trans
      rfl⟩

/-- C6: for every call to `transform_multi_multi`, if acquiring any exclusive
template write cursor or any pattern read cursor fails (with a path conflict,
or a hook refusal), the call returns that error before any value has been
written into the trie: the returned space is the input space unchanged. -/
theorem claim_C6_transform_error_leaves_space {E : Type}
    (writer_hook reader_hook : List Nat → Except E Unit)
    (space : TNode Unit) (ps0 : PermitState)
    (patterns templates : List (List Nat)) (fuel : Nat)
    (er : TransformErr E) (t2 : TNode Unit)
    (h : transform_multi_multi_impl writer_hook reader_hook space ps0 patterns templates fuel
      = some (.error er, t2)) :
    t2 = space := by
  rw [transform_multi_multi_impl] at h
  cases hw : acquireWriters writer_hook (templates.map prefixBytes) ps0 with
  | error er2 =>
    rw [hw] at h
    simp only [Option.some.injEq, Prod.mk.injEq] at h
    exact h.2.symm
  | ok ps1 =>
    rw [hw] at h
    simp only [] at h
    cases hr : acquireReaders reader_hook (prefixBytes (patterns.headD []))
        patterns.length ps1 with
    | error er2 =>
      rw [hr] at h
      simp only [Option.some.injEq, Prod.mk.injEq] at h
      exact h.2.symm
    | ok ps2 =>
      rw [hr] at h
      simp only [] at h
      cases hrt : rt (actTransform templates) fuel (mkStackVec patterns).reverse
          ⟨prefixBytes (patterns.headD []), queryProductRoot space patterns, []⟩ [] space with
      | none => rw [hrt] at h; cases h
      | some x =>
        rw [hrt] at h
        cases x with
        | error e => exact Empty.elim e
        | ok s =>
          simp only [Option.some.injEq, Prod.mk.injEq] at h
          exact absurd h.1 (by simp)

theorem claim_C6_transform_error_leaves_space_witness :
    (transform_multi_multi_impl (fun _ => (Except.ok () : Except Unit Unit))
        (fun _ => .ok ()) TNode.nu ⟨[[]], []⟩ [] [[]] 1
      = some (.error .conflict, TNode.nu)) ∧ (TNode.nu : TNode Unit) = TNode.nu := by
  have h : transform_multi_multi_impl (fun _ => (Except.ok () : Except Unit Unit))
      (fun _ => .ok ()) TNode.nu ⟨[[]], []⟩ [] [[]] 1
      = some (.error .conflict, TNode.nu) := by
    simp [transform_multi_multi_impl, acquireWriters, write_zipper_at_exclusive_path,
      overlaps, prefixBytes, List.isPrefixOf]
  exact ⟨h, claim_C6_transform_error_leaves_space
    (fun _ => (Except.ok () : Except Unit Unit)) (fun _ => .ok ())
    TNode.nu ⟨[[]], []⟩ [] [[]] 1 .conflict TNode.nu h⟩

end Mork
